import Mathlib

/-!
# Verification of the repository content migration engine

A shallow embedding, in Lean 4, of the core of `src/gen_repos.py` and
`src/re_in_repos.py`: the rule-substitution engine (`replace_content`), the
name-casing converter (`camel_to_kebab`), the bottom-up tree transformer
(`process_directory`), and the publish pipelines of both tools
(`process_repo`), together with theorems settling the frozen claims about
them.

Strings are modelled as `List Char`.  The Python regular-expression classes
`[A-Z]` and `[a-z]` are the ASCII ranges; `str.lower`, `str.isupper` are
modelled with the same ASCII case semantics (`Spec2Proof.isUpperA`,
`Spec2Proof.isLowerA`), which agree with Python on every ASCII string.
All twelve substitution patterns of `replace_content` are literal strings
(`bio\.tools` escapes the dot), so `re.sub` on them is literal leftmost,
non-overlapping substring replacement; `Spec2Proof.replaceAll` implements
exactly that.
-/

namespace Spec2Proof

/-! ## Characters: ASCII case discipline (`[A-Z]`, `[a-z]`, `str.lower`) -/

/-- `[A-Z]` of the regular expressions in `camel_to_kebab`
(src/gen_repos.py line 28); also Python's `str.isupper` on ASCII. -/
def isUpperA (c : Char) : Bool := 65 ≤ c.toNat && c.toNat ≤ 90

/-- `[a-z]`; also Python's `str.islower` on ASCII. -/
def isLowerA (c : Char) : Bool := 97 ≤ c.toNat && c.toNat ≤ 122

/-- A cased character (ASCII): a letter. -/
def isCased (c : Char) : Bool := isUpperA c || isLowerA c

/-- Python's `str.lower`, per character, on ASCII. -/
def toLowerA (c : Char) : Char :=
  if isUpperA c then Char.ofNat (c.toNat + 32) else c

/-- Python's `str.isupper`: at least one cased character and every cased
character upper-case (over ASCII: no lower-case letter). -/
def pyIsUpper (l : List Char) : Bool :=
  l.any isCased && l.all (fun c => !(isLowerA c))

/-! ## `camel_to_kebab` (src/gen_repos.py lines 25-32)

`re.compile(r'(?<!^)(?=[A-Z][a-z]|(?<=[a-z])[A-Z])').split(name)` splits
`name` at every position `i ≥ 1` such that either the character at `i` is
upper-case and the one at `i+1` is lower-case, or the character at `i-1` is
lower-case and the one at `i` is upper-case.  `splitCamel` computes the
resulting segments by one pass, carrying the previous character. -/

/-- Does the zero-width split pattern match just before character `c`, whose
predecessor is `prev` and whose successors are `rest`? -/
def boundary (prev c : Char) (rest : List Char) : Bool :=
  (isUpperA c && (match rest with | d :: _ => isLowerA d | [] => false))
  || (isLowerA prev && isUpperA c)

/-- One pass over the characters after the first: the segment still open and
the closed segments after it. -/
def splitCamelAux : Char → List Char → List Char × List (List Char)
  | _, [] => ([], [])
  | prev, c :: rest =>
    let res := splitCamelAux c rest
    if boundary prev c rest then ([], (c :: res.1) :: res.2)
    else (c :: res.1, res.2)

/-- The segments `re.split` produces (position 0 never splits: `(?<!^)`). -/
def splitCamel : List Char → List (List Char)
  | [] => [[]]
  | c :: rest =>
    let res := splitCamelAux c rest
    (c :: res.1) :: res.2

/-- `part.lower() if not (part.isupper() and len(part) > 1) else part`
(src/gen_repos.py lines 30-31). -/
def processPart (part : List Char) : List Char :=
  if pyIsUpper part ∧ 1 < part.length then part else part.map toLowerA

/-- `camel_to_kebab` (src/gen_repos.py lines 25-32): a name with a hyphen is
returned unchanged; otherwise split at the camel-case boundaries, lower-case
every segment that is not an all-upper-case run longer than one character,
and join with `-`. -/
def camel_to_kebab (name : List Char) : List Char :=
  if '-' ∈ name then name
  else List.intercalate ['-'] ((splitCamel name).map processPart)

/-! ## `replace_content` (src/gen_repos.py lines 35-46) -/

/-- Leftmost non-overlapping replacement of the literal pattern `p` by `r`,
as `re.sub` performs on a literal pattern; the fuel (any bound on the number
of steps, `s.length` suffices) only makes the recursion structural. -/
def replaceAllFuel (p r : List Char) : Nat → List Char → List Char
  | _, [] => []
  | 0, s => s
  | fuel + 1, c :: s =>
    if p.isPrefixOf (c :: s) then
      r ++ replaceAllFuel p r fuel (s.drop (p.length - 1))
    else
      c :: replaceAllFuel p r fuel s

/-- `re.sub(p, r, s)` for a literal pattern `p`. -/
def replaceAll (p r s : List Char) : List Char :=
  replaceAllFuel p r s.length s

/-- The fixed rule list of `replace_content` (src/gen_repos.py lines 36-43),
in source order.  Every pattern is literal; `bio\.tools` escapes the dot, so
it too is the literal string `bio.tools`. -/
def replacements : List (List Char × List Char) :=
  [("tools".toList, "agents".toList), ("Tools".toList, "Agents".toList),
   ("tool".toList, "agent".toList), ("Tool".toList, "Agent".toList),
   ("biotool".toList, "bioagent".toList), ("biotools".toList, "bioagents".toList),
   ("BioTools".toList, "BioAgents".toList), ("BioTool".toList, "BioAgent".toList),
   ("elixir".toList, "iechor".toList), ("Elixir".toList, "iEchor".toList),
   ("ELIXIR".toList, "IECHOR".toList), ("bio.tools".toList, "hub.bioagents.tech".toList)]

/-- `replace_content` (src/gen_repos.py lines 35-46): apply each rule in the
fixed sequence, each rule's output feeding the next rule's input. -/
def replace_content (content : List Char) : List Char :=
  replacements.foldl (fun acc pr => replaceAll pr.1 pr.2 acc) content

/-- The state of the content after the first `k` rules only. -/
def applyFirst (k : Nat) (content : List Char) : List Char :=
  (replacements.take k).foldl (fun acc pr => replaceAll pr.1 pr.2 acc) content

/-- `replace_content` with the last rule (`bio\.tools → hub.bioagents.tech`)
removed. -/
def replace_content11 (content : List Char) : List Char :=
  replacements.dropLast.foldl (fun acc pr => replaceAll pr.1 pr.2 acc) content

/-! ## The publish pipeline of `gen_repos.py` (`process_repo`, lines 98-180)

`process_repo` is a straight-line sequence of external calls whose control
flow depends only on: whether the target repository already exists, the
`reprocess` flag, whether creating it succeeds, whether a stale local copy
exists, whether the freshly initialised copy has an active branch, which
push attempts fail (`GitCommandError`), and whether the collaborator grant
succeeds.  We model it as a function from those observations to the emitted
sequence of external actions plus the outcome. -/

/-- One external call of `process_repo` (src/gen_repos.py lines 98-180), in
the order the code can perform them. -/
inductive Act where
  | getOrg        -- `g.get_organization(target_org_name)` (line 105)
  | checkExists   -- `target_org.get_repo(new_repo_name)` (line 109)
  | deleteRepo    -- `target_repo.delete()` (line 114)
  | waitDelay     -- `time.sleep(5)` (lines 115, 123, 172)
  | createRepo    -- `target_org.create_repo(new_repo_name)` (line 121)
  | removeLocal   -- `shutil.rmtree(local_repo_path)` (line 129)
  | clone         -- `Repo.clone_from(...)` (line 131)
  | stripHistory  -- removing the `.git` directory (lines 133-135)
  | transform     -- `process_directory(local_repo_path)` (line 137)
  | gitInit       -- `Repo.init` (line 140)
  | commitAll     -- `git add -A` and the commit (lines 141-142)
  | setRemote     -- set or create the `origin` remote (lines 146-149)
  | createBranch  -- `git checkout -b main` when no active branch (line 157)
  | push (k : Nat) -- the k-th push attempt, k = 0, 1, 2 (line 162)
  | addCollab     -- `add_to_collaborators` (lines 174-175)
deriving DecidableEq, Repr

/-- Actions that change local or remote state (everything except the reads
`getOrg`/`checkExists` and the waits). -/
def Act.isWrite : Act → Bool
  | .getOrg | .checkExists | .waitDelay => false
  | _ => true

/-- Push attempts, for counting recorded attempts. -/
def Act.isPush : Act → Bool
  | .push _ => true
  | _ => false

/-- How one run of `process_repo` finds the world: the observations its
branches read.  `pushOk k` is whether the k-th push attempt succeeds. -/
structure Ctx where
  existsInTarget : Bool
  reprocess : Bool
  createOk : Bool
  localExists : Bool
  activeBranch : Bool
  pushOk : Nat → Bool
  collabOk : Bool

/-- `for attempt in range(3)` (src/gen_repos.py lines 160-172), called with
the attempt list `[0, 1, 2]`: push; on success break; on failure at the last
attempt (`attempt == 2`) give up, otherwise sleep 5 seconds and retry.
Returns the actions and whether some attempt succeeded. -/
def pushLoop (pushOk : Nat → Bool) : List Nat → List Act × Bool
  | [] => ([], false)
  | k :: ks =>
    if pushOk k then ([Act.push k], true)
    else if k == 2 then ([Act.push k], false)
    else
      let res := pushLoop pushOk ks
      (Act.push k :: Act.waitDelay :: res.1, res.2)

/-- Outcome of `process_repo`: the early `return`s at lines 111-112 (skip),
126 (creation failure) and 169 (push failure), or completion. -/
inductive Outcome where
  | skipped
  | createFailed
  | pushFailed
  | completed
deriving DecidableEq, Repr

/-- `process_repo` (src/gen_repos.py lines 98-180) as the sequence of
external actions it performs plus its outcome.  The new repository name
`camel_to_kebab (replace_content name)` (line 99) is pure and appears in no
action.  The collaborator grant's own failure is swallowed (lines 173-178),
so the outcome does not depend on `collabOk`. -/
def process_repo_model (ctx : Ctx) : List Act × Outcome :=
  let pre := [Act.getOrg, Act.checkExists]
  if ctx.existsInTarget && !ctx.reprocess then (pre, .skipped)
  else
    let delPart := if ctx.existsInTarget then [Act.deleteRepo, Act.waitDelay] else []
    if !ctx.createOk then (pre ++ delPart ++ [Act.createRepo], .createFailed)
    else
      let localPart :=
        (if ctx.localExists then [Act.removeLocal] else [])
        ++ [Act.clone, Act.stripHistory, Act.transform, Act.gitInit,
            Act.commitAll, Act.setRemote]
        ++ (if ctx.activeBranch then [] else [Act.createBranch])
      let pres := pre ++ delPart ++ [Act.createRepo, Act.waitDelay] ++ localPart
      let res := pushLoop ctx.pushOk [0, 1, 2]
      if res.2 then (pres ++ res.1 ++ [Act.addCollab], .completed)
      else (pres ++ res.1, .pushFailed)

/-! ## The second tool, `re_in_repos.py` (`process_repo`, lines 36-65) -/

/-- One external call of `re_in_repos.process_repo`. -/
inductive Act2 where
  | getOrg2        -- `g.get_organization(org_name)` (line 39)
  | checkClean     -- `is_repo_clean(local_path)` (lines 19-22, 45)
  | clone2         -- `Repo.clone_from(repo_url, local_path)` (line 51)
  | renameReplace  -- `rename_and_replace(...)` (lines 25-33, 54)
  | stageAll2      -- `repo.git.add(A=True)` (line 58)
  | commit2        -- `repo.index.commit(...)` (line 59)
  | push2          -- `origin.push()` (line 63)
deriving DecidableEq, Repr

/-- `re_in_repos.process_repo` (src/re_in_repos.py lines 36-65): if a local
copy exists it is kept, but a dirty one (`is_repo_clean` false, i.e.
uncommitted changes) makes the function return at once; otherwise the
repository is cloned first.  Then rename/replace, stage, commit, push.
Returns the actions and whether the repository was processed. -/
def process_repo2 (localExists clean : Bool) : List Act2 × Bool :=
  let work := [Act2.renameReplace, Act2.stageAll2, Act2.commit2, Act2.push2]
  if localExists then
    if !clean then ([Act2.getOrg2, Act2.checkClean], false)
    else ([Act2.getOrg2, Act2.checkClean] ++ work, true)
  else ([Act2.getOrg2, Act2.clone2] ++ work, true)

/-! ## The tree transformer (`process_directory`, src/gen_repos.py lines 59-95)

`os.walk(dir_path, topdown=False)` lists a directory, recurses into each
subdirectory (deepest entries are yielded first), and only then yields the
directory itself with its (still old-named) subdirectory and file names.
At each yielded directory the code renames the subdirectory entries whose
name changes under `replace_content`, then for each file renames it when its
name changes, and, unless `is_binary` classified it binary or the UTF-8 read
fails (lines 82-95), rewrites its content when `replace_content` changes it.

The on-disk tree is modelled by `Entry`; a file carries the two observations
the code makes of it: `binary` is `is_binary`'s verdict (lines 49-56, a file
is binary iff its bytes fail to decode as text) and `utf8ok` whether the
UTF-8 read at line 84 succeeds.  Entries are identified by their position:
the path of child indices from the root, which renaming never changes.
`walkTrace` records the renames and content rewrites in the order the code
performs them. -/

inductive Entry where
  | file (name content : List Char) (binary utf8ok : Bool)
  | dir (name : List Char) (children : List Entry)

/-- The name of an entry. -/
def Entry.name : Entry → List Char
  | .file n _ _ _ => n
  | .dir n _ => n

/-- One observable file-system mutation of `process_directory`, tagged with
the position (path of child indices from the walked root) of the entry it
touches. -/
inductive Event where
  | renameDir (path : List Nat)   -- `os.rename` at line 67
  | renameFile (path : List Nat)  -- `os.rename` at line 78
  | rewrite (path : List Nat)     -- the write-back at lines 88-89
deriving DecidableEq, Repr

/-- The position an event touches. -/
def Event.path : Event → List Nat
  | .renameDir p => p
  | .renameFile p => p
  | .rewrite p => p

/-- Is the event a rename? -/
def Event.isRename : Event → Bool
  | .renameDir _ => true
  | .renameFile _ => true
  | .rewrite _ => false

/-- The renames of the subdirectory entries of one yielded directory
(src/gen_repos.py lines 62-68): child `i + j` (the j-th of `cs`) is renamed
exactly when `replace_content` changes its name.  Files are not touched by
this loop. -/
def dirEvents (p : List Nat) (i : Nat) : List Entry → List Event
  | [] => []
  | Entry.dir n _ :: cs =>
    (if replace_content n ≠ n then [Event.renameDir (p ++ [i])] else [])
      ++ dirEvents p (i + 1) cs
  | Entry.file _ _ _ _ :: cs => dirEvents p (i + 1) cs

/-- The per-file work of one yielded directory (src/gen_repos.py lines
71-95): rename when the name changes, then rewrite the content when the file
is not binary, decodes as UTF-8 and the content changes. -/
def fileEvents (p : List Nat) (i : Nat) : List Entry → List Event
  | [] => []
  | Entry.dir _ _ :: cs => fileEvents p (i + 1) cs
  | Entry.file n c b u :: cs =>
    (if replace_content n ≠ n then [Event.renameFile (p ++ [i])] else [])
      ++ (if b = false ∧ u = true ∧ replace_content c ≠ c
          then [Event.rewrite (p ++ [i])] else [])
      ++ fileEvents p (i + 1) cs

mutual

/-- The events of `process_directory` on the subtree rooted at `e`, whose
own position is `p`: with `topdown=False` every subdirectory's walk is
yielded before the root, and the root's yield processes the subdirectory
entries first, the files after (`e` itself is renamed by its parent's yield,
not here — the walked root is never renamed). -/
def walkTrace (p : List Nat) : Entry → List Event
  | .file _ _ _ _ => []
  | .dir _ cs => walkChildren p 0 cs ++ dirEvents p 0 cs ++ fileEvents p 0 cs

/-- The walks of the children `cs` (positions `i`, `i+1`, ...), in order. -/
def walkChildren (p : List Nat) (i : Nat) : List Entry → List Event
  | [] => []
  | c :: cs => walkTrace (p ++ [i]) c ++ walkChildren p (i + 1) cs

end

mutual

/-- The tree `process_directory` leaves on disk, by position: every entry's
name becomes `replace_content` of it, and a file's content is rewritten to
`replace_content` of it exactly when the file is neither binary-classified
nor undecodable (otherwise the bytes are untouched). -/
def transformTree : Entry → Entry
  | .file n c b u =>
    .file (replace_content n) (if b = false ∧ u = true then replace_content c else c) b u
  | .dir n cs => .dir (replace_content n) (transformChildren cs)

/-- `transformTree` on each child. -/
def transformChildren : List Entry → List Entry
  | [] => []
  | c :: cs => transformTree c :: transformChildren cs

end

/-- The entry at a position: `[]` is the root, `i :: q` the position `q`
inside the `i`-th child. -/
def entryAt : Entry → List Nat → Option Entry
  | e, [] => some e
  | Entry.dir _ cs, i :: q => (cs[i]?).bind (fun c => entryAt c q)
  | Entry.file _ _ _ _, _ :: _ => none

/-- The pushes with the fixed retry delays of a run whose attempts
`0, ..., k - 1` fail and whose attempt `k` succeeds. -/
def pushSeg (k : Nat) : List Act :=
  (List.range k).flatMap (fun j => [Act.push j, Act.waitDelay]) ++ [Act.push k]

/-- The actions of a non-skipped, successfully created publish before the
push loop starts. -/
def prefixTrace (l a : Bool) : List Act :=
  [Act.getOrg, Act.checkExists, Act.createRepo, Act.waitDelay]
    ++ (if l then [Act.removeLocal] else [])
    ++ [Act.clone, Act.stripHistory, Act.transform, Act.gitInit,
        Act.commitAll, Act.setRemote]
    ++ (if a then [] else [Act.createBranch])

/-- The ordering discipline between two events of a walk, in trace order:
once a directory has been renamed no event strictly below it may follow
(its descendants were completed first), and no two renames touch the same
position. -/
def EvRel (ev1 ev2 : Event) : Prop :=
  (∀ q, ev1 = Event.renameDir q → q <+: Event.path ev2 → Event.path ev2 = q)
  ∧ (Event.isRename ev1 = true → Event.isRename ev2 = true
      → Event.path ev1 ≠ Event.path ev2)

/-! ## Helper lemmas -/

@[simp] theorem path_renameDir (q : List Nat) :
    Event.path (Event.renameDir q) = q := rfl

@[simp] theorem path_renameFile (q : List Nat) :
    Event.path (Event.renameFile q) = q := rfl

@[simp] theorem path_rewrite (q : List Nat) :
    Event.path (Event.rewrite q) = q := rfl

/-- Peeling one step off a `foldl` over the first `k + 1` elements. -/
theorem foldl_take_succ {α β : Type} (f : β → α → β) (l : List α) (k : Nat)
    (pr : α) (h : l[k]? = some pr) (b : β) :
    (l.take (k + 1)).foldl f b = f ((l.take k).foldl f b) pr := by
  rw [List.take_succ, h]
  simp


/-! ## Claims -/

/-- C1: `replace_content` applies the rules strictly in their fixed sequence,
each rule's output feeding the next rule's input (last conjunct); on the
input `"BioTools"` the first rule does not fire, the second rule
(`Tools → Agents`) turns it into `"BioAgents"`, the final output is
literally `"BioAgents"`, and the seventh rule (`BioTools → BioAgents`) never
matches for this input: the state reaching it contains no `"BioTools"`, and
applying rule seven to that state leaves it unchanged. -/
theorem C1_sequential_rules_bioTools :
    replace_content ("BioTools".toList) = "BioAgents".toList
    ∧ applyFirst 1 ("BioTools".toList) = "BioTools".toList
    ∧ applyFirst 2 ("BioTools".toList) = "BioAgents".toList
    ∧ ¬ ("BioTools".toList <:+: applyFirst 6 ("BioTools".toList))
    ∧ replaceAll ("BioTools".toList) ("BioAgents".toList)
        (applyFirst 6 ("BioTools".toList)) = applyFirst 6 ("BioTools".toList)
    ∧ (∀ (s : List Char) (k : Nat) (pr : List Char × List Char),
        replacements[k]? = some pr →
        applyFirst (k + 1) s = replaceAll pr.1 pr.2 (applyFirst k s)) :=
  ⟨by decide, by decide, by decide, by decide, by decide,
   fun s k pr h => foldl_take_succ _ replacements k pr h s⟩

/-- C4: `camel_to_kebab` maps `"FooBarBaz"` to `"foo-bar-baz"`; any name
containing a hyphen (such as `"already-kebab"`) is returned unchanged; on
`"HTTPServer"` the leading all-upper-case acronym segment `"HTTP"` is kept
unmodified, and in general a segment that is entirely upper-case and longer
than one character is not lower-cased. -/
theorem C4_camel_to_kebab_examples :
    camel_to_kebab ("FooBarBaz".toList) = "foo-bar-baz".toList
    ∧ camel_to_kebab ("already-kebab".toList) = "already-kebab".toList
    ∧ (∀ x : List Char, '-' ∈ x → camel_to_kebab x = x)
    ∧ camel_to_kebab ("HTTPServer".toList) = "HTTP".toList ++ "-server".toList
    ∧ splitCamel ("HTTPServer".toList) = ["HTTP".toList, "Server".toList]
    ∧ (∀ p : List Char, pyIsUpper p = true → 1 < p.length → processPart p = p) :=
  ⟨by decide, by decide,
   fun x hx => by simp only [camel_to_kebab, if_pos hx],
   by decide, by decide,
   fun p h1 h2 => by simp only [processPart, if_pos (And.intro h1 h2)]⟩

/-- C7: when the target repository already exists and `reprocess` is false,
`process_repo` performs only the two reads (resolve the organization, check
existence) and stops, reported as skipped: whatever the rest of the world
looks like, no delete, create, clone, transform, commit or push is emitted
and the action trace contains no state-changing action at all. -/
theorem C7_existing_repo_skipped :
    ∀ (c l a cb : Bool) (po : Nat → Bool),
      process_repo_model ⟨true, false, c, l, a, po, cb⟩
        = ([Act.getOrg, Act.checkExists], Outcome.skipped)
      ∧ (process_repo_model ⟨true, false, c, l, a, po, cb⟩).1.filter Act.isWrite
        = [] := by
  intro c l a cb po
  constructor <;> rfl

/-- C10: in `re_in_repos.py`, when a local copy of the repository exists and
is dirty (has uncommitted changes), `process_repo` returns right after the
cleanliness check: no clone, no rename/replace, no stage, no commit and no
push happen. -/
theorem C10_dirty_local_repo_skipped :
    process_repo2 true false = ([Act2.getOrg2, Act2.checkClean], false)
    ∧ Act2.clone2 ∉ (process_repo2 true false).1
    ∧ Act2.renameReplace ∉ (process_repo2 true false).1
    ∧ Act2.stageAll2 ∉ (process_repo2 true false).1
    ∧ Act2.commit2 ∉ (process_repo2 true false).1
    ∧ Act2.push2 ∉ (process_repo2 true false).1 := by
  refine ⟨rfl, ?_, ?_, ?_, ?_, ?_⟩ <;> decide

/-- C2, counterexample: the tree transformer does not apply the name-casing
conversion to directory or file entries.  A directory named `"FooBar"`
would, under name conversion plus substitution pass (in either order), get
the new name `"foo-bar"` and hence be renamed; the code computes only
`replace_content "FooBar" = "FooBar"` and performs no rename at all. -/
theorem C2_counterexample_fooBar_not_renamed :
    walkTrace [] (Entry.dir ("r".toList) [Entry.dir ("FooBar".toList) []]) = []
    ∧ camel_to_kebab (replace_content ("FooBar".toList)) = "foo-bar".toList
    ∧ replace_content (camel_to_kebab ("FooBar".toList)) = "foo-bar".toList
    ∧ ("foo-bar".toList == "FooBar".toList) = false
    ∧ replace_content ("FooBar".toList) = "FooBar".toList := by
  refine ⟨?_, ?_, ?_, ?_, ?_⟩ <;> decide

/-- C9, counterexample: it is not true that, by the time the last rule is
reached, every occurrence of `"tools"` has been removed and none
reintroduced.  On the input `"toolools"` the first rule finds no `"tools"`
at all, and the third rule (`tool → agent`) rewrites it to `"agentools"`,
reintroducing an occurrence of `"tools"` which is still present in the state
that reaches the twelfth rule. -/
theorem C9_counterexample_tools_reintroduced :
    applyFirst 1 ("toolools".toList) = "toolools".toList
    ∧ applyFirst 3 ("toolools".toList) = "agentools".toList
    ∧ applyFirst 11 ("toolools".toList) = "agentools".toList
    ∧ "tools".toList <:+: applyFirst 11 ("toolools".toList)
    ∧ replace_content ("toolools".toList) = "agentools".toList := by
  refine ⟨?_, ?_, ?_, ?_, ?_⟩ <;> decide

/-! ### The push retry discipline (C8) -/


theorem process_model_trace_ok (rp l a cb : Bool) (f : Nat → Bool)
    (tr : List Act) (h : pushLoop f [0, 1, 2] = (tr, true)) :
    process_repo_model ⟨false, rp, true, l, a, f, cb⟩ =
      (prefixTrace l a ++ tr ++ [Act.addCollab], Outcome.completed) := by
  simp [process_repo_model, prefixTrace, h]

theorem process_model_trace_fail (rp l a cb : Bool) (f : Nat → Bool)
    (tr : List Act) (h : pushLoop f [0, 1, 2] = (tr, false)) :
    process_repo_model ⟨false, rp, true, l, a, f, cb⟩ =
      (prefixTrace l a ++ tr, Outcome.pushFailed) := by
  simp [process_repo_model, prefixTrace, h]

theorem prefixTrace_no_push (l a : Bool) :
    (prefixTrace l a).filter Act.isPush = [] := by
  cases l <;> cases a <;> decide

theorem prefixTrace_no_collab (l a : Bool) :
    Act.addCollab ∉ prefixTrace l a := by
  cases l <;> cases a <;> decide

theorem pushLoop_succ0 (f : Nat → Bool) (h0 : f 0 = true) :
    pushLoop f [0, 1, 2] = ([Act.push 0], true) := by
  simp [pushLoop, h0]

theorem pushLoop_succ1 (f : Nat → Bool) (h0 : f 0 = false) (h1 : f 1 = true) :
    pushLoop f [0, 1, 2]
      = ([Act.push 0, Act.waitDelay, Act.push 1], true) := by
  simp [pushLoop, h0, h1]

theorem pushLoop_succ2 (f : Nat → Bool) (h0 : f 0 = false) (h1 : f 1 = false)
    (h2 : f 2 = true) :
    pushLoop f [0, 1, 2]
      = ([Act.push 0, Act.waitDelay, Act.push 1, Act.waitDelay, Act.push 2],
         true) := by
  simp [pushLoop, h0, h1, h2]

theorem pushLoop_fail (f : Nat → Bool) (h0 : f 0 = false) (h1 : f 1 = false)
    (h2 : f 2 = false) :
    pushLoop f [0, 1, 2]
      = ([Act.push 0, Act.waitDelay, Act.push 1, Act.waitDelay, Act.push 2],
         false) := by
  simp [pushLoop, h0, h1, h2]

/-- C8: the push is retried up to 3 total attempts with a fixed delay
between attempts.  Any run whose attempts before `k ≤ 2` fail and whose
attempt `k` succeeds completes the publish, records exactly `k + 1` push
attempts (with a delay between consecutive ones), and goes on to the
collaborator grant; three consecutive failures abort the publish with
exactly 3 recorded attempts and the collaborator grant is never executed. -/
theorem C8_push_retry :
    (∀ (rp l a cb : Bool) (f : Nat → Bool) (k : Nat),
      k ≤ 2 → f k = true → (∀ j, j < k → f j = false) →
      (process_repo_model ⟨false, rp, true, l, a, f, cb⟩).2 = Outcome.completed
      ∧ ((process_repo_model ⟨false, rp, true, l, a, f, cb⟩).1.filter
          Act.isPush).length = k + 1
      ∧ Act.addCollab ∈ (process_repo_model ⟨false, rp, true, l, a, f, cb⟩).1
      ∧ pushSeg k <:+: (process_repo_model ⟨false, rp, true, l, a, f, cb⟩).1)
    ∧ (∀ (rp l a cb : Bool) (f : Nat → Bool),
      f 0 = false → f 1 = false → f 2 = false →
      (process_repo_model ⟨false, rp, true, l, a, f, cb⟩).2 = Outcome.pushFailed
      ∧ (process_repo_model ⟨false, rp, true, l, a, f, cb⟩).1.filter Act.isPush
        = [Act.push 0, Act.push 1, Act.push 2]
      ∧ Act.addCollab ∉ (process_repo_model ⟨false, rp, true, l, a, f, cb⟩).1
      ∧ [Act.push 0, Act.waitDelay, Act.push 1, Act.waitDelay, Act.push 2]
        <:+: (process_repo_model ⟨false, rp, true, l, a, f, cb⟩).1) := by
  constructor
  · intro rp l a cb f k hk hfk hprev
    have htr : ∃ tr, pushLoop f [0, 1, 2] = (tr, true) ∧ tr = pushSeg k
        ∧ tr.filter Act.isPush = (List.range (k + 1)).map Act.push := by
      interval_cases k
      · exact ⟨_, pushLoop_succ0 f hfk, by decide, by decide⟩
      · exact ⟨_, pushLoop_succ1 f (hprev 0 (by omega)) hfk, by decide, by decide⟩
      · exact ⟨_, pushLoop_succ2 f (hprev 0 (by omega)) (hprev 1 (by omega)) hfk,
          by decide, by decide⟩
    obtain ⟨tr, hpl, htr1, htr2⟩ := htr
    rw [process_model_trace_ok rp l a cb f tr hpl]
    refine ⟨rfl, ?_, ?_, ?_⟩
    · simp [List.filter_append, prefixTrace_no_push, htr2, Act.isPush]
    · simp
    · exact ⟨prefixTrace l a, [Act.addCollab], by rw [htr1, List.append_assoc]⟩
  · intro rp l a cb f h0 h1 h2
    rw [process_model_trace_fail rp l a cb f _ (pushLoop_fail f h0 h1 h2)]
    refine ⟨rfl, ?_, ?_, ?_⟩
    · rw [List.filter_append, prefixTrace_no_push]
      decide
    · simp [prefixTrace_no_collab]
    · exact ⟨prefixTrace l a, [], by simp⟩

/-! ### Idempotence of `camel_to_kebab` (C3) -/

theorem isUpperA_toLowerA (c : Char) : isUpperA (toLowerA c) = false := by
  cases hb : isUpperA c with
  | false => simp [toLowerA, hb]
  | true =>
    simp only [toLowerA, hb, if_true]
    have h' : 65 ≤ c.toNat ∧ c.toNat ≤ 90 := by
      simpa [isUpperA] using hb
    obtain ⟨h1, h2⟩ := h'
    generalize hn : c.toNat = n at h1 h2
    interval_cases n <;> decide

theorem toLowerA_of_not_upper {c : Char} (h : isUpperA c = false) :
    toLowerA c = c := by
  simp [toLowerA, h]

theorem toLowerA_toLowerA (c : Char) : toLowerA (toLowerA c) = toLowerA c :=
  toLowerA_of_not_upper (isUpperA_toLowerA c)

theorem map_toLowerA_idem (l : List Char) :
    (l.map toLowerA).map toLowerA = l.map toLowerA := by
  rw [List.map_map]
  exact List.map_congr_left (fun c _ => toLowerA_toLowerA c)

theorem processPart_map_toLowerA (l : List Char) :
    processPart (l.map toLowerA) = l.map toLowerA := by
  rw [processPart]
  split
  · rfl
  · exact map_toLowerA_idem l

/-- No camel boundary fires on a string without upper-case letters. -/
theorem splitCamelAux_no_upper {l : List Char}
    (h : ∀ c ∈ l, isUpperA c = false) :
    ∀ prev, splitCamelAux prev l = (l, []) := by
  induction l with
  | nil => intro prev; rfl
  | cons c rest ih =>
    intro prev
    have hc : isUpperA c = false := h c (List.mem_cons_self c rest)
    have hb : boundary prev c rest = false := by simp [boundary, hc]
    simp [splitCamelAux, hb, ih (fun d hd => h d (List.mem_cons_of_mem c hd)) c]

theorem splitCamel_no_upper {l : List Char}
    (h : ∀ c ∈ l, isUpperA c = false) : splitCamel l = [l] := by
  cases l with
  | nil => rfl
  | cons c rest =>
    simp [splitCamel,
      splitCamelAux_no_upper (fun d hd => h d (List.mem_cons_of_mem c hd)) c]

/-- If no boundary fired, the single open segment is the whole input. -/
theorem splitCamelAux_segs_nil {l : List Char} :
    ∀ prev, (splitCamelAux prev l).2 = [] → (splitCamelAux prev l).1 = l := by
  induction l with
  | nil => intro prev _; rfl
  | cons c rest ih =>
    intro prev h
    cases hb : boundary prev c rest with
    | true => simp [splitCamelAux, hb] at h
    | false =>
      simp only [splitCamelAux, hb, Bool.false_eq_true, if_false] at h ⊢
      rw [ih c h]

theorem intercalate_singleton (a : List Char) :
    List.intercalate ['-'] [a] = a := by
  simp [List.intercalate]

theorem hyphen_mem_intercalate (a b : List Char) (t : List (List Char)) :
    '-' ∈ List.intercalate ['-'] (a :: b :: t) := by
  rw [List.intercalate, List.intersperse_cons_cons]
  simp

theorem camel_to_kebab_map_toLowerA (l : List Char) :
    camel_to_kebab (l.map toLowerA) = l.map toLowerA := by
  rw [camel_to_kebab]
  split
  · rfl
  · rw [splitCamel_no_upper (fun c hc => ?_), List.map_cons, List.map_nil,
      intercalate_singleton, processPart_map_toLowerA]
    obtain ⟨d, _, rfl⟩ := List.mem_map.mp hc
    exact isUpperA_toLowerA d

/-- C3: `camel_to_kebab` is idempotent.  A name with a hyphen is returned
unchanged, so any output that contains a hyphen (several segments) is a
fixed point; a single-segment output is either the preserved all-upper-case
input or the lower-cased input, and both are fixed points as well. -/
theorem C3_convertName_idempotent :
    ∀ x : List Char, camel_to_kebab (camel_to_kebab x) = camel_to_kebab x := by
  intro x
  by_cases hx : '-' ∈ x
  · have h : camel_to_kebab x = x := by rw [camel_to_kebab, if_pos hx]
    rw [h, h]
  · have hckx : camel_to_kebab x
        = List.intercalate ['-'] ((splitCamel x).map processPart) := by
      rw [camel_to_kebab, if_neg hx]
    cases x with
    | nil => decide
    | cons c rest =>
      cases hres : (splitCamelAux c rest).2 with
      | nil =>
        have h1 : (splitCamelAux c rest).1 = rest := splitCamelAux_segs_nil c hres
        have hsc : splitCamel (c :: rest) = [c :: rest] := by
          simp [splitCamel, hres, h1]
        have hck2 : camel_to_kebab (c :: rest) = processPart (c :: rest) := by
          rw [hckx, hsc, List.map_cons, List.map_nil, intercalate_singleton]
        rw [hck2, processPart]
        split
        · rw [hck2, processPart, if_pos ‹_›]
        · exact camel_to_kebab_map_toLowerA (c :: rest)
      | cons s t =>
        have hsc : splitCamel (c :: rest)
            = (c :: (splitCamelAux c rest).1) :: s :: t := by
          simp [splitCamel, hres]
        have hck2 : camel_to_kebab (c :: rest)
            = List.intercalate ['-'] (processPart (c :: (splitCamelAux c rest).1)
                :: processPart s :: t.map processPart) := by
          rw [hckx, hsc, List.map_cons, List.map_cons]
        rw [hck2, camel_to_kebab, if_pos (hyphen_mem_intercalate _ _ _)]

/-! ### Where the events of a walk live (C2, C5, C6) -/

theorem append_singleton_congr (p : List Nat) {a b : Nat} (h : a = b) :
    p ++ [a] = p ++ [b] := by rw [h]

theorem mem_dirEvents (p q : List Nat) :
    ∀ (i : Nat) (cs : List Entry),
      Event.renameDir q ∈ dirEvents p i cs
        ↔ ∃ j n cs2, cs[j]? = some (Entry.dir n cs2) ∧ q = p ++ [i + j]
            ∧ replace_content n ≠ n := by
  intro i cs
  induction cs generalizing i with
  | nil => simp [dirEvents]
  | cons c cs ih =>
    cases c with
    | file n cc b u =>
      rw [dirEvents, ih (i + 1)]
      constructor
      · rintro ⟨j, n', cs2, hj, rfl, hch⟩
        exact ⟨j + 1, n', cs2, by simpa using hj,
          append_singleton_congr p (by omega), hch⟩
      · rintro ⟨j, n', cs2, hj, rfl, hch⟩
        match j with
        | 0 => simp at hj
        | j + 1 =>
          exact ⟨j, n', cs2, by simpa using hj,
            append_singleton_congr p (by omega), hch⟩
    | dir n cs2 =>
      rw [dirEvents]
      rw [List.mem_append, ih (i + 1)]
      constructor
      · rintro (h1 | ⟨j, n', cs2', hj, rfl, hch⟩)
        · by_cases hch : replace_content n ≠ n
          · rw [if_pos hch] at h1
            simp only [List.mem_singleton, Event.renameDir.injEq] at h1
            exact ⟨0, n, cs2, by simp, by simpa using h1, hch⟩
          · rw [if_neg hch] at h1
            simp at h1
        · exact ⟨j + 1, n', cs2', by simpa using hj,
            append_singleton_congr p (by omega), hch⟩
      · rintro ⟨j, n', cs2', hj, rfl, hch⟩
        match j with
        | 0 =>
          simp only [List.getElem?_cons_zero, Option.some.injEq] at hj
          injection hj with h1 h2
          subst h1
          left
          rw [if_pos hch]
          simp
        | j + 1 =>
          right
          exact ⟨j, n', cs2', by simpa using hj,
            append_singleton_congr p (by omega), hch⟩

theorem mem_fileEvents_renameFile (p q : List Nat) :
    ∀ (i : Nat) (cs : List Entry),
      Event.renameFile q ∈ fileEvents p i cs
        ↔ ∃ j n c b u, cs[j]? = some (Entry.file n c b u) ∧ q = p ++ [i + j]
            ∧ replace_content n ≠ n := by
  intro i cs
  induction cs generalizing i with
  | nil => simp [fileEvents]
  | cons e cs ih =>
    cases e with
    | dir n cs2 =>
      rw [fileEvents, ih (i + 1)]
      constructor
      · rintro ⟨j, n', c', b', u', hj, rfl, hch⟩
        exact ⟨j + 1, n', c', b', u', by simpa using hj,
          append_singleton_congr p (by omega), hch⟩
      · rintro ⟨j, n', c', b', u', hj, rfl, hch⟩
        match j with
        | 0 => simp at hj
        | j + 1 =>
          exact ⟨j, n', c', b', u', by simpa using hj,
            append_singleton_congr p (by omega), hch⟩
    | file n c b u =>
      rw [fileEvents]
      rw [List.mem_append, List.mem_append, ih (i + 1)]
      constructor
      · rintro ((h1 | h1) | ⟨j, n', c', b', u', hj, rfl, hch⟩)
        · by_cases hch : replace_content n ≠ n
          · rw [if_pos hch] at h1
            simp only [List.mem_singleton, Event.renameFile.injEq] at h1
            exact ⟨0, n, c, b, u, by simp, by simpa using h1, hch⟩
          · rw [if_neg hch] at h1
            simp at h1
        · split at h1 <;> simp at h1
        · exact ⟨j + 1, n', c', b', u', by simpa using hj,
            append_singleton_congr p (by omega), hch⟩
      · rintro ⟨j, n', c', b', u', hj, rfl, hch⟩
        match j with
        | 0 =>
          simp only [List.getElem?_cons_zero, Option.some.injEq] at hj
          injection hj with h1 h2 h3 h4
          subst h1
          left; left
          rw [if_pos hch]
          simp
        | j + 1 =>
          right
          exact ⟨j, n', c', b', u', by simpa using hj,
            append_singleton_congr p (by omega), hch⟩

theorem mem_fileEvents_rewrite (p q : List Nat) :
    ∀ (i : Nat) (cs : List Entry),
      Event.rewrite q ∈ fileEvents p i cs
        ↔ ∃ j n c b u, cs[j]? = some (Entry.file n c b u) ∧ q = p ++ [i + j]
            ∧ b = false ∧ u = true ∧ replace_content c ≠ c := by
  intro i cs
  induction cs generalizing i with
  | nil => simp [fileEvents]
  | cons e cs ih =>
    cases e with
    | dir n cs2 =>
      rw [fileEvents, ih (i + 1)]
      constructor
      · rintro ⟨j, n', c', b', u', hj, rfl, h⟩
        exact ⟨j + 1, n', c', b', u', by simpa using hj,
          append_singleton_congr p (by omega), h⟩
      · rintro ⟨j, n', c', b', u', hj, rfl, h⟩
        match j with
        | 0 => simp at hj
        | j + 1 =>
          exact ⟨j, n', c', b', u', by simpa using hj,
            append_singleton_congr p (by omega), h⟩
    | file n c b u =>
      rw [fileEvents]
      rw [List.mem_append, List.mem_append, ih (i + 1)]
      constructor
      · rintro ((h1 | h1) | ⟨j, n', c', b', u', hj, rfl, h⟩)
        · split at h1 <;> simp at h1
        · by_cases hcond : b = false ∧ u = true ∧ replace_content c ≠ c
          · rw [if_pos hcond] at h1
            simp only [List.mem_singleton, Event.rewrite.injEq] at h1
            exact ⟨0, n, c, b, u, by simp, by simpa using h1, hcond⟩
          · rw [if_neg hcond] at h1
            simp at h1
        · exact ⟨j + 1, n', c', b', u', by simpa using hj,
            append_singleton_congr p (by omega), h⟩
      · rintro ⟨j, n', c', b', u', hj, rfl, h⟩
        match j with
        | 0 =>
          simp only [List.getElem?_cons_zero, Option.some.injEq] at hj
          injection hj with h1 h2 h3 h4
          subst h1; subst h2; subst h3; subst h4
          left; right
          rw [if_pos h]
          simp
        | j + 1 =>
          right
          exact ⟨j, n', c', b', u', by simpa using hj,
            append_singleton_congr p (by omega), h⟩

/-- Every event the subdirectory loop emits is a `renameDir` one level below
the yielded directory. -/
theorem dirEvents_shape (p : List Nat) :
    ∀ (i : Nat) (cs : List Entry) (ev : Event), ev ∈ dirEvents p i cs →
      ∃ j, i ≤ j ∧ ev = Event.renameDir (p ++ [j]) := by
  intro i cs
  induction cs generalizing i with
  | nil => simp [dirEvents]
  | cons e cs ih =>
    intro ev h
    cases e with
    | file n c b u =>
      obtain ⟨j, hij, hev⟩ := ih (i + 1) ev (by simpa [dirEvents] using h)
      exact ⟨j, by omega, hev⟩
    | dir n cs2 =>
      rw [dirEvents, List.mem_append] at h
      rcases h with h1 | h2
      · refine ⟨i, le_refl i, ?_⟩
        split at h1 <;> simpa using h1
      · obtain ⟨j, hij, hev⟩ := ih (i + 1) ev h2
        exact ⟨j, by omega, hev⟩

/-- Every event the file loop emits is a `renameFile` or `rewrite` one level
below the yielded directory. -/
theorem fileEvents_shape (p : List Nat) :
    ∀ (i : Nat) (cs : List Entry) (ev : Event), ev ∈ fileEvents p i cs →
      ∃ j, i ≤ j ∧ (ev = Event.renameFile (p ++ [j]) ∨ ev = Event.rewrite (p ++ [j])) := by
  intro i cs
  induction cs generalizing i with
  | nil => simp [fileEvents]
  | cons e cs ih =>
    intro ev h
    cases e with
    | dir n cs2 =>
      obtain ⟨j, hij, hev⟩ := ih (i + 1) ev (by simpa [fileEvents] using h)
      exact ⟨j, by omega, hev⟩
    | file n c b u =>
      rw [fileEvents, List.mem_append, List.mem_append] at h
      rcases h with (h1 | h1) | h2
      · refine ⟨i, le_refl i, Or.inl ?_⟩
        split at h1 <;> simpa using h1
      · refine ⟨i, le_refl i, Or.inr ?_⟩
        split at h1 <;> simpa using h1
      · obtain ⟨j, hij, hev⟩ := ih (i + 1) ev h2
        exact ⟨j, by omega, hev⟩

theorem append_cons_eq (p : List Nat) (a : Nat) (r : List Nat) :
    p ++ a :: r = (p ++ [a]) ++ r := by simp

mutual

theorem walkTrace_path_shape (p : List Nat) (e : Entry) (ev : Event)
    (h : ev ∈ walkTrace p e) : ∃ i s, Event.path ev = p ++ i :: s := by
  cases e with
  | file n c b u => simp [walkTrace] at h
  | dir n cs =>
    rw [walkTrace, List.mem_append, List.mem_append] at h
    rcases h with (hw | hd) | hf
    · obtain ⟨j, s, _, hpath⟩ := walkChildren_path_shape p 0 cs ev hw
      exact ⟨j, s, hpath⟩
    · obtain ⟨j, _, rfl⟩ := dirEvents_shape p 0 cs ev hd
      exact ⟨j, [], rfl⟩
    · obtain ⟨j, _, hev⟩ := fileEvents_shape p 0 cs ev hf
      rcases hev with rfl | rfl
      · exact ⟨j, [], rfl⟩
      · exact ⟨j, [], rfl⟩

theorem walkChildren_path_shape (p : List Nat) (i : Nat) (cs : List Entry)
    (ev : Event) (h : ev ∈ walkChildren p i cs) :
    ∃ j s, i ≤ j ∧ Event.path ev = p ++ j :: s := by
  cases cs with
  | nil => simp [walkChildren] at h
  | cons c cs =>
    rw [walkChildren, List.mem_append] at h
    rcases h with h1 | h2
    · obtain ⟨j, s, hpath⟩ := walkTrace_path_shape (p ++ [i]) c ev h1
      refine ⟨i, j :: s, le_refl i, ?_⟩
      rw [hpath, append_cons_eq p i (j :: s)]
    · obtain ⟨j, s, hij, hpath⟩ := walkChildren_path_shape p (i + 1) cs ev h2
      exact ⟨j, s, by omega, hpath⟩

end

mutual

/-- The generic characterization: an event `mk` with relative position
`q ≠ []` occurs in the walk of `e` exactly when the entry at `q` satisfies
the per-kind condition `P`; `hyield` states this for the yield block of one
directory. -/
theorem mkEvent_walkTrace (mk : List Nat → Event) (P : Entry → Prop)
    (hpath : ∀ qq, Event.path (mk qq) = qq)
    (hyield : ∀ (pp : List Nat) (i : Nat) (cs : List Entry) (qq : List Nat),
      (mk qq ∈ dirEvents pp i cs ∨ mk qq ∈ fileEvents pp i cs)
        ↔ ∃ j c, cs[j]? = some c ∧ qq = pp ++ [i + j] ∧ P c)
    (p : List Nat) (e : Entry) (q : List Nat) (hq : q ≠ []) :
    mk (p ++ q) ∈ walkTrace p e ↔ ∃ c, entryAt e q = some c ∧ P c := by
  cases e with
  | file n c b u =>
    cases q with
    | nil => exact absurd rfl hq
    | cons k rest => simp [walkTrace, entryAt]
  | dir n cs =>
    cases q with
    | nil => exact absurd rfl hq
    | cons k rest =>
      rw [walkTrace, List.mem_append, List.mem_append]
      have hent : entryAt (Entry.dir n cs) (k :: rest)
          = (cs[k]?).bind (fun c => entryAt c rest) := rfl
      constructor
      · rintro ((hw | hd) | hf)
        · obtain ⟨j, rest', c, heq, hne, hj, c2, hc2, hP⟩ :=
            (mkEvent_walkChildren mk P hpath hyield p 0 cs (k :: rest) hq).mp hw
          simp only [Nat.zero_add] at heq
          obtain ⟨rfl, rfl⟩ : k = j ∧ rest = rest' := by
            injection heq with h1 h2; exact ⟨h1, h2⟩
          exact ⟨c2, by rw [hent, hj]; exact hc2, hP⟩
        · obtain ⟨j, c, hj, heq, hP⟩ :=
            (hyield p 0 cs (p ++ k :: rest)).mp (Or.inl hd)
          simp only [Nat.zero_add] at heq
          have h2 : k :: rest = [j] := List.append_cancel_left heq
          obtain ⟨rfl, rfl⟩ : k = j ∧ rest = ([] : List Nat) := by
            injection h2 with h1 h2; exact ⟨h1, h2⟩
          exact ⟨c, by rw [hent, hj]; simp [entryAt], hP⟩
        · obtain ⟨j, c, hj, heq, hP⟩ :=
            (hyield p 0 cs (p ++ k :: rest)).mp (Or.inr hf)
          simp only [Nat.zero_add] at heq
          have h2 : k :: rest = [j] := List.append_cancel_left heq
          obtain ⟨rfl, rfl⟩ : k = j ∧ rest = ([] : List Nat) := by
            injection h2 with h1 h2; exact ⟨h1, h2⟩
          exact ⟨c, by rw [hent, hj]; simp [entryAt], hP⟩
      · rintro ⟨c2, hc2, hP⟩
        rw [hent] at hc2
        obtain ⟨c, hc, hent2⟩ := Option.bind_eq_some.mp hc2
        cases rest with
        | nil =>
          have hcc : c = c2 := by
            simpa [entryAt] using hent2
          subst hcc
          have := (hyield p 0 cs (p ++ [k])).mpr
            ⟨k, c, hc, by simp, hP⟩
          rcases this with h | h
          · exact Or.inl (Or.inr h)
          · exact Or.inr h
        | cons r rs =>
          refine Or.inl (Or.inl ?_)
          exact (mkEvent_walkChildren mk P hpath hyield p 0 cs
            (k :: r :: rs) hq).mpr
            ⟨k, r :: rs, c, by simp, by simp, hc, c2, hent2, hP⟩

theorem mkEvent_walkChildren (mk : List Nat → Event) (P : Entry → Prop)
    (hpath : ∀ qq, Event.path (mk qq) = qq)
    (hyield : ∀ (pp : List Nat) (i : Nat) (cs : List Entry) (qq : List Nat),
      (mk qq ∈ dirEvents pp i cs ∨ mk qq ∈ fileEvents pp i cs)
        ↔ ∃ j c, cs[j]? = some c ∧ qq = pp ++ [i + j] ∧ P c)
    (p : List Nat) (i : Nat) (cs : List Entry) (q : List Nat) (hq : q ≠ []) :
    mk (p ++ q) ∈ walkChildren p i cs
      ↔ ∃ j rest c, q = (i + j) :: rest ∧ rest ≠ [] ∧ cs[j]? = some c
          ∧ ∃ c2, entryAt c rest = some c2 ∧ P c2 := by
  cases cs with
  | nil => simp [walkChildren]
  | cons c cs =>
    rw [walkChildren, List.mem_append]
    constructor
    · rintro (h1 | h2)
      · obtain ⟨x, s, hpathx⟩ := walkTrace_path_shape (p ++ [i]) c (mk (p ++ q)) h1
        rw [hpath] at hpathx
        rw [← append_cons_eq p i (x :: s)] at hpathx
        have hql : q = i :: x :: s := List.append_cancel_left hpathx
        subst hql
        rw [append_cons_eq p i (x :: s)] at h1
        obtain ⟨c2, hc2, hP⟩ :=
          (mkEvent_walkTrace mk P hpath hyield (p ++ [i]) c (x :: s)
            (List.cons_ne_nil x s)).mp h1
        exact ⟨0, x :: s, c, by simp, List.cons_ne_nil x s, by simp, c2, hc2, hP⟩
      · obtain ⟨j, rest, cth, heq, hne, hj, c2, hent, hP⟩ :=
          (mkEvent_walkChildren mk P hpath hyield p (i + 1) cs q hq).mp h2
        refine ⟨j + 1, rest, cth, ?_, hne, by simpa using hj, c2, hent, hP⟩
        rw [heq]
        have : i + 1 + j = i + (j + 1) := by omega
        rw [this]
    · rintro ⟨j, rest, cth, heq, hne, hj, c2, hent, hP⟩
      match j with
      | 0 =>
        have hcc : cth = c := (by simpa using hj : c = cth).symm
        subst hcc
        refine Or.inl ?_
        have hqi : q = i :: rest := by simpa using heq
        subst hqi
        rw [append_cons_eq p i rest]
        exact (mkEvent_walkTrace mk P hpath hyield (p ++ [i]) cth rest hne).mpr
          ⟨c2, hent, hP⟩
      | j + 1 =>
        refine Or.inr ?_
        refine (mkEvent_walkChildren mk P hpath hyield p (i + 1) cs q hq).mpr
          ⟨j, rest, cth, ?_, hne, by simpa using hj, c2, hent, hP⟩
        rw [heq]
        have : i + (j + 1) = i + 1 + j := by omega
        rw [this]

end

theorem renameDir_not_in_fileEvents (pp : List Nat) (i : Nat)
    (cs : List Entry) (qq : List Nat) :
    Event.renameDir qq ∉ fileEvents pp i cs := by
  intro h
  obtain ⟨j, _, h1 | h1⟩ := fileEvents_shape pp i cs _ h <;> simp at h1

theorem renameFile_not_in_dirEvents (pp : List Nat) (i : Nat)
    (cs : List Entry) (qq : List Nat) :
    Event.renameFile qq ∉ dirEvents pp i cs := by
  intro h
  obtain ⟨j, _, h1⟩ := dirEvents_shape pp i cs _ h
  simp at h1

theorem rewrite_not_in_dirEvents (pp : List Nat) (i : Nat)
    (cs : List Entry) (qq : List Nat) :
    Event.rewrite qq ∉ dirEvents pp i cs := by
  intro h
  obtain ⟨j, _, h1⟩ := dirEvents_shape pp i cs _ h
  simp at h1

/-- A directory entry at position `q` is renamed exactly when
`replace_content` changes its name. -/
theorem renameDir_mem_walkTrace (p : List Nat) (e : Entry) (q : List Nat)
    (hq : q ≠ []) :
    Event.renameDir (p ++ q) ∈ walkTrace p e
      ↔ ∃ n cs, entryAt e q = some (Entry.dir n cs) ∧ replace_content n ≠ n := by
  rw [mkEvent_walkTrace Event.renameDir
    (fun c => ∃ n cs, c = Entry.dir n cs ∧ replace_content n ≠ n)
    (fun _ => rfl) ?hy p e q hq]
  · constructor
    · rintro ⟨c, hc, n, cs, rfl, hch⟩
      exact ⟨n, cs, hc, hch⟩
    · rintro ⟨n, cs, hc, hch⟩
      exact ⟨_, hc, n, cs, rfl, hch⟩
  case hy =>
    intro pp i cs qq
    constructor
    · rintro (h | h)
      · obtain ⟨j, n, cs2, hj, hq2, hch⟩ := (mem_dirEvents pp qq i cs).mp h
        exact ⟨j, _, hj, hq2, n, cs2, rfl, hch⟩
      · exact absurd h (renameDir_not_in_fileEvents pp i cs qq)
    · rintro ⟨j, c, hj, hq2, n, cs2, rfl, hch⟩
      exact Or.inl ((mem_dirEvents pp qq i cs).mpr ⟨j, n, cs2, hj, hq2, hch⟩)

/-- A file entry at position `q` is renamed exactly when `replace_content`
changes its name (binary or not). -/
theorem renameFile_mem_walkTrace (p : List Nat) (e : Entry) (q : List Nat)
    (hq : q ≠ []) :
    Event.renameFile (p ++ q) ∈ walkTrace p e
      ↔ ∃ n c b u, entryAt e q = some (Entry.file n c b u)
          ∧ replace_content n ≠ n := by
  rw [mkEvent_walkTrace Event.renameFile
    (fun ce => ∃ n c b u, ce = Entry.file n c b u ∧ replace_content n ≠ n)
    (fun _ => rfl) ?hy p e q hq]
  · constructor
    · rintro ⟨ce, hc, n, c, b, u, rfl, hch⟩
      exact ⟨n, c, b, u, hc, hch⟩
    · rintro ⟨n, c, b, u, hc, hch⟩
      exact ⟨_, hc, n, c, b, u, rfl, hch⟩
  case hy =>
    intro pp i cs qq
    constructor
    · rintro (h | h)
      · exact absurd h (renameFile_not_in_dirEvents pp i cs qq)
      · obtain ⟨j, n, c, b, u, hj, hq2, hch⟩ :=
          (mem_fileEvents_renameFile pp qq i cs).mp h
        exact ⟨j, _, hj, hq2, n, c, b, u, rfl, hch⟩
    · rintro ⟨j, ce, hj, hq2, n, c, b, u, rfl, hch⟩
      exact Or.inr ((mem_fileEvents_renameFile pp qq i cs).mpr
        ⟨j, n, c, b, u, hj, hq2, hch⟩)

/-- A file entry at position `q` has its content rewritten exactly when it
is neither binary-classified nor undecodable and `replace_content` changes
its content. -/
theorem rewrite_mem_walkTrace (p : List Nat) (e : Entry) (q : List Nat)
    (hq : q ≠ []) :
    Event.rewrite (p ++ q) ∈ walkTrace p e
      ↔ ∃ n c b u, entryAt e q = some (Entry.file n c b u)
          ∧ b = false ∧ u = true ∧ replace_content c ≠ c := by
  rw [mkEvent_walkTrace Event.rewrite
    (fun ce => ∃ n c b u, ce = Entry.file n c b u ∧ b = false ∧ u = true
      ∧ replace_content c ≠ c)
    (fun _ => rfl) ?hy p e q hq]
  · constructor
    · rintro ⟨ce, hc, n, c, b, u, rfl, hcond⟩
      exact ⟨n, c, b, u, hc, hcond⟩
    · rintro ⟨n, c, b, u, hc, hcond⟩
      exact ⟨_, hc, n, c, b, u, rfl, hcond⟩
  case hy =>
    intro pp i cs qq
    constructor
    · rintro (h | h)
      · exact absurd h (rewrite_not_in_dirEvents pp i cs qq)
      · obtain ⟨j, n, c, b, u, hj, hq2, hcond⟩ :=
          (mem_fileEvents_rewrite pp qq i cs).mp h
        exact ⟨j, _, hj, hq2, n, c, b, u, rfl, hcond⟩
    · rintro ⟨j, ce, hj, hq2, n, c, b, u, rfl, hcond⟩
      exact Or.inr ((mem_fileEvents_rewrite pp qq i cs).mpr
        ⟨j, n, c, b, u, hj, hq2, hcond⟩)

/-! ### Order and uniqueness of the walk (C6) -/


theorem eq_append_cons_head {p : List Nat} {a b : Nat} {l1 l2 : List Nat}
    (h : p ++ a :: l1 = p ++ b :: l2) : a = b ∧ l1 = l2 := by
  have h2 := List.append_cancel_left h
  exact ⟨by injection h2, by injection h2⟩

theorem prefix_append_cons_head {p : List Nat} {a b : Nat} {l1 l2 : List Nat}
    (h : p ++ a :: l1 <+: p ++ b :: l2) : a = b := by
  obtain ⟨t, ht⟩ := h
  rw [List.append_assoc, List.cons_append] at ht
  exact (eq_append_cons_head ht).1

/-- Two events one level below the same yielded directory always satisfy
the ordering part of `EvRel`; only path distinctness needs an argument. -/
theorem evrel_same_level {ev1 ev2 : Event} {p : List Nat} {j1 j2 : Nat}
    (h1 : Event.path ev1 = p ++ [j1]) (h2 : Event.path ev2 = p ++ [j2])
    (hr2 : Event.isRename ev1 = true → Event.isRename ev2 = true
      → Event.path ev1 ≠ Event.path ev2) : EvRel ev1 ev2 := by
  refine ⟨?_, hr2⟩
  intro q hq hpre
  have hq1 : q = p ++ [j1] := by
    rw [← h1, hq, path_renameDir]
  refine (List.IsPrefix.eq_of_length hpre ?_).symm
  rw [hq1, h2]
  simp

/-- An event strictly inside a subtree against an event one level below the
subtree's parent. -/
theorem evrel_deep_shallow {ev1 ev2 : Event} {p : List Nat} {j1 : Nat}
    {x1 : Nat} {s1 : List Nat} {j2 : Nat}
    (h1 : Event.path ev1 = p ++ j1 :: x1 :: s1)
    (h2 : Event.path ev2 = p ++ [j2]) : EvRel ev1 ev2 := by
  constructor
  · intro q hq hpre
    have hq1 : q = p ++ j1 :: x1 :: s1 := by rw [← h1, hq, path_renameDir]
    have hlen := List.IsPrefix.length_le hpre
    rw [hq1, h2] at hlen
    simp at hlen
  · intro _ _ he
    rw [h1, h2] at he
    have := (eq_append_cons_head he).2
    simp at this

/-- Events of two different subtrees (their positions diverge one level
below `p`). -/
theorem evrel_diff_subtree {ev1 ev2 : Event} {p : List Nat} {j1 j2 : Nat}
    {s1 s2 : List Nat} (h1 : Event.path ev1 = p ++ j1 :: s1)
    (h2 : Event.path ev2 = p ++ j2 :: s2) (hne : j1 ≠ j2) : EvRel ev1 ev2 := by
  constructor
  · intro q hq hpre
    have hq1 : q = p ++ j1 :: s1 := by rw [← h1, hq, path_renameDir]
    rw [hq1, h2] at hpre
    exact absurd (prefix_append_cons_head hpre) hne
  · intro _ _ he
    rw [h1, h2] at he
    exact absurd (eq_append_cons_head he).1 hne

theorem walkChildren_path_deep (p : List Nat) (i : Nat) (cs : List Entry)
    (ev : Event) (h : ev ∈ walkChildren p i cs) :
    ∃ j x s, i ≤ j ∧ Event.path ev = p ++ j :: x :: s := by
  induction cs generalizing i with
  | nil => simp [walkChildren] at h
  | cons c cs ih =>
    rw [walkChildren, List.mem_append] at h
    rcases h with h1 | h2
    · obtain ⟨x, s, hpath⟩ := walkTrace_path_shape (p ++ [i]) c ev h1
      refine ⟨i, x, s, le_refl i, ?_⟩
      rw [hpath, append_cons_eq p i (x :: s)]
    · obtain ⟨j, x, s, hij, hpath⟩ := ih (i + 1) h2
      exact ⟨j, x, s, by omega, hpath⟩

theorem yield_shape (p : List Nat) (i : Nat) (cs : List Entry) (ev : Event)
    (h : ev ∈ dirEvents p i cs ++ fileEvents p i cs) :
    ∃ j, i ≤ j ∧ Event.path ev = p ++ [j] := by
  rcases List.mem_append.mp h with h1 | h2
  · obtain ⟨j, hij, rfl⟩ := dirEvents_shape p i cs ev h1
    exact ⟨j, hij, rfl⟩
  · obtain ⟨j, hij, h3 | h3⟩ := fileEvents_shape p i cs ev h2 <;>
      exact ⟨j, hij, by rw [h3]; rfl⟩

/-- The subdirectory loop renames pairwise distinct positions. -/
theorem dirEvents_pairwise (p : List Nat) :
    ∀ (i : Nat) (cs : List Entry), List.Pairwise EvRel (dirEvents p i cs) := by
  intro i cs
  induction cs generalizing i with
  | nil => simp [dirEvents]
  | cons c cs ih =>
    cases c with
    | file n cc b u =>
      rw [dirEvents]
      exact ih (i + 1)
    | dir n cs2 =>
      rw [dirEvents, List.pairwise_append]
      refine ⟨?_, ih (i + 1), ?_⟩
      · split <;> simp
      · intro a ha b hb
        have hpa : a = Event.renameDir (p ++ [i]) := by
          split at ha <;> simpa using ha
        obtain ⟨j, hij, rfl⟩ := dirEvents_shape p (i + 1) cs b hb
        refine evrel_same_level (by rw [hpa]; rfl) rfl ?_
        intro _ _ he
        rw [hpa] at he
        have : i = j := by simpa using he
        omega

/-- The file loop renames pairwise distinct positions (a file's rename and
rewrite share a position, but a rewrite is not a rename). -/
theorem fileEvents_pairwise (p : List Nat) :
    ∀ (i : Nat) (cs : List Entry), List.Pairwise EvRel (fileEvents p i cs) := by
  intro i cs
  induction cs generalizing i with
  | nil => simp [fileEvents]
  | cons c cs ih =>
    cases c with
    | dir n cs2 =>
      rw [fileEvents]
      exact ih (i + 1)
    | file n cc b u =>
      rw [fileEvents, List.pairwise_append, List.pairwise_append]
      refine ⟨⟨?_, ?_, ?_⟩, ih (i + 1), ?_⟩
      · split <;> simp
      · split <;> simp
      · intro a ha b hb
        have hpa : a = Event.renameFile (p ++ [i]) := by
          split at ha <;> simpa using ha
        have hpb : b = Event.rewrite (p ++ [i]) := by
          split at hb <;> simpa using hb
        constructor
        · intro q hq
          rw [hpa] at hq
          simp at hq
        · intro _ hr
          rw [hpb] at hr
          simp [Event.isRename] at hr
      · intro a ha b hb
        obtain ⟨j, hij, hb3⟩ := fileEvents_shape p (i + 1) cs b hb
        have hpa : Event.path a = p ++ [i] := by
          rcases List.mem_append.mp ha with h1 | h1 <;>
            (split at h1 <;> simp at h1) <;> (rw [h1]; rfl)
        have hpb : Event.path b = p ++ [j] := by
          rcases hb3 with rfl | rfl <;> rfl
        refine evrel_same_level hpa hpb ?_
        intro _ _ he
        rw [hpa, hpb] at he
        have : i = j := by simpa using he
        omega

/-- Distinct positions across the two loops of one yield: a position cannot
hold both a subdirectory and a file. -/
theorem dir_file_path_ne {p : List Nat} {i : Nat} {cs : List Entry}
    {q1 q2 : List Nat} (h1 : Event.renameDir q1 ∈ dirEvents p i cs)
    (h2 : Event.renameFile q2 ∈ fileEvents p i cs) : q1 ≠ q2 := by
  obtain ⟨j1, n1, cs1, hj1, rfl, _⟩ := (mem_dirEvents p q1 i cs).mp h1
  obtain ⟨j2, n2, c2, b2, u2, hj2, rfl, _⟩ :=
    (mem_fileEvents_renameFile p q2 i cs).mp h2
  intro he
  have hj : i + j1 = i + j2 := by
    have := List.append_cancel_left he
    simpa using this
  have : j1 = j2 := by omega
  subst this
  rw [hj1] at hj2
  simp at hj2

theorem yield_pairwise (p : List Nat) (i : Nat) (cs : List Entry) :
    List.Pairwise EvRel (dirEvents p i cs ++ fileEvents p i cs) := by
  rw [List.pairwise_append]
  refine ⟨dirEvents_pairwise p i cs, fileEvents_pairwise p i cs, ?_⟩
  intro a ha b hb
  obtain ⟨j1, _, hpa0⟩ := dirEvents_shape p i cs a ha
  obtain ⟨j2, _, hb3⟩ := fileEvents_shape p i cs b hb
  have hpa : Event.path a = p ++ [j1] := by rw [hpa0]; rfl
  have hpb : Event.path b = p ++ [j2] := by
    rcases hb3 with rfl | rfl <;> rfl
  refine evrel_same_level hpa hpb ?_
  intro _ hrb he
  rcases hb3 with rfl | rfl
  · rw [hpa0] at ha
    have hne := dir_file_path_ne ha hb
    have hj : j1 = j2 := by
      rw [hpa0] at he
      simpa using he
    exact hne (by rw [hj])
  · simp [Event.isRename] at hrb

mutual

theorem walkTrace_pairwise (p : List Nat) (e : Entry) :
    List.Pairwise EvRel (walkTrace p e) := by
  cases e with
  | file n c b u => simp [walkTrace]
  | dir n cs =>
    rw [walkTrace, List.append_assoc, List.pairwise_append]
    refine ⟨walkChildren_pairwise p 0 cs, yield_pairwise p 0 cs, ?_⟩
    intro a ha b hb
    obtain ⟨j1, x1, s1, _, hpa⟩ := walkChildren_path_deep p 0 cs a ha
    obtain ⟨j2, _, hpb⟩ := yield_shape p 0 cs b hb
    exact evrel_deep_shallow hpa hpb

theorem walkChildren_pairwise (p : List Nat) (i : Nat) (cs : List Entry) :
    List.Pairwise EvRel (walkChildren p i cs) := by
  cases cs with
  | nil => simp [walkChildren]
  | cons c cs =>
    rw [walkChildren, List.pairwise_append]
    refine ⟨walkTrace_pairwise (p ++ [i]) c, walkChildren_pairwise p (i + 1) cs, ?_⟩
    intro a ha b hb
    obtain ⟨x1, s1, hpa0⟩ := walkTrace_path_shape (p ++ [i]) c a ha
    obtain ⟨j2, x2, s2, hij, hpb⟩ := walkChildren_path_deep p (i + 1) cs b hb
    have hpa : Event.path a = p ++ i :: x1 :: s1 := by
      rw [hpa0, append_cons_eq p i (x1 :: s1)]
    exact evrel_diff_subtree hpa hpb (by omega)

end

/-! ### The transformed tree, by position (C5) -/

theorem transformChildren_getElem :
    ∀ (cs : List Entry) (i : Nat),
      (transformChildren cs)[i]? = (cs[i]?).map transformTree := by
  intro cs
  induction cs with
  | nil => intro i; simp [transformChildren]
  | cons c cs ih =>
    intro i
    match i with
    | 0 => simp [transformChildren]
    | i + 1 => simpa [transformChildren] using ih i

/-- `entryAt` commutes with the transformation: positions are stable. -/
theorem entryAt_transformTree (q : List Nat) :
    ∀ e : Entry, entryAt (transformTree e) q = (entryAt e q).map transformTree := by
  induction q with
  | nil => intro e; simp [entryAt]
  | cons i rest ih =>
    intro e
    cases e with
    | file n c b u => simp [transformTree, entryAt]
    | dir n cs =>
      rw [transformTree]
      simp only [entryAt]
      rw [transformChildren_getElem]
      cases hcs : cs[i]? with
      | none => simp
      | some c => simp [ih c]

/-- C2 (amended): for every directory entry and every file entry visited by
the tree transformer, the new name is computed by the substitution pass
alone (`replace_content`; the name-casing conversion `camel_to_kebab` is not
applied to tree entries), and the entry is renamed exactly when that name
differs from the current one. -/
theorem C2_amended_rename_iff_name_changes :
    ∀ (t : Entry) (p q : List Nat) (e : Entry),
      entryAt t q = some e → q ≠ [] →
      ((Event.renameDir (p ++ q) ∈ walkTrace p t
          ∨ Event.renameFile (p ++ q) ∈ walkTrace p t)
        ↔ replace_content (Entry.name e) ≠ Entry.name e) := by
  intro t p q e hent hq
  cases e with
  | dir n cs =>
    rw [Entry.name]
    constructor
    · rintro (h | h)
      · obtain ⟨n', cs', hent', hch⟩ := (renameDir_mem_walkTrace p t q hq).mp h
        rw [hent, Option.some.injEq, Entry.dir.injEq] at hent'
        rw [hent'.1]
        exact hch
      · obtain ⟨n', c', b', u', hent', _⟩ :=
          (renameFile_mem_walkTrace p t q hq).mp h
        rw [hent] at hent'
        simp at hent'
    · intro hch
      exact Or.inl ((renameDir_mem_walkTrace p t q hq).mpr ⟨n, cs, hent, hch⟩)
  | file n c b u =>
    rw [Entry.name]
    constructor
    · rintro (h | h)
      · obtain ⟨n', cs', hent', _⟩ := (renameDir_mem_walkTrace p t q hq).mp h
        rw [hent] at hent'
        simp at hent'
      · obtain ⟨n', c', b', u', hent', hch⟩ :=
          (renameFile_mem_walkTrace p t q hq).mp h
        rw [hent, Option.some.injEq, Entry.file.injEq] at hent'
        rw [hent'.1]
        exact hch
    · intro hch
      exact Or.inr ((renameFile_mem_walkTrace p t q hq).mpr
        ⟨n, c, b, u, hent, hch⟩)

/-- Witness for C2 (amended): in the tree `r/Tools`, the directory at
position `[0]` is renamed because `replace_content` changes `"Tools"`. -/
theorem C2_amended_witness :
    (Event.renameDir [0]
        ∈ walkTrace [] (Entry.dir ("r".toList) [Entry.dir ("Tools".toList) []])
      ∨ Event.renameFile [0]
        ∈ walkTrace [] (Entry.dir ("r".toList) [Entry.dir ("Tools".toList) []]))
      ↔ replace_content (Entry.name (Entry.dir ("Tools".toList) []))
          ≠ Entry.name (Entry.dir ("Tools".toList) []) :=
  C2_amended_rename_iff_name_changes
    (Entry.dir ("r".toList) [Entry.dir ("Tools".toList) []]) [] [0]
    (Entry.dir ("Tools".toList) []) rfl (by decide)

/-- C5: a binary-classified file is renamed like any other entry but its
byte content is never rewritten: no rewrite event touches its position, the
transformed tree holds the identical content at the same position (only the
name became its substitution image), and a rename happens exactly when the
name changes. -/
theorem C5_binary_never_rewritten :
    ∀ (t : Entry) (p q : List Nat) (n c : List Char) (u : Bool),
      entryAt t q = some (Entry.file n c true u) →
      Event.rewrite (p ++ q) ∉ walkTrace p t
      ∧ entryAt (transformTree t) q
          = some (Entry.file (replace_content n) c true u)
      ∧ (q ≠ [] →
          (Event.renameFile (p ++ q) ∈ walkTrace p t
            ↔ replace_content n ≠ n)) := by
  intro t p q n c u hent
  refine ⟨?_, ?_, ?_⟩
  · intro hmem
    cases q with
    | nil =>
      rw [entryAt, Option.some.injEq] at hent
      rw [hent] at hmem
      simp [walkTrace] at hmem
    | cons k rest =>
      obtain ⟨n', c', b', u', hent', hb, _, _⟩ :=
        (rewrite_mem_walkTrace p t (k :: rest) (List.cons_ne_nil k rest)).mp hmem
      rw [hent, Option.some.injEq, Entry.file.injEq] at hent'
      rw [← hent'.2.2.1] at hb
      simp at hb
  · rw [entryAt_transformTree q t, hent]
    simp [transformTree]
  · intro hq
    constructor
    · intro h
      obtain ⟨n', c', b', u', hent', hch⟩ :=
        (renameFile_mem_walkTrace p t q hq).mp h
      rw [hent, Option.some.injEq, Entry.file.injEq] at hent'
      rw [hent'.1]
      exact hch
    · intro hch
      exact (renameFile_mem_walkTrace p t q hq).mpr ⟨n, c, true, u, hent, hch⟩

/-- Witness for C5: the binary file `r/tools.png` is renamed (its name
changes under substitution) but its bytes `"tools"` are untouched. -/
theorem C5_witness :
    Event.rewrite [0]
      ∉ walkTrace []
        (Entry.dir ("r".toList)
          [Entry.file ("tools.png".toList) ("tools".toList) true true])
    ∧ entryAt (transformTree
        (Entry.dir ("r".toList)
          [Entry.file ("tools.png".toList) ("tools".toList) true true])) [0]
      = some (Entry.file (replace_content ("tools.png".toList))
          ("tools".toList) true true)
    ∧ ([0] ≠ ([] : List Nat) →
        (Event.renameFile [0]
          ∈ walkTrace []
            (Entry.dir ("r".toList)
              [Entry.file ("tools.png".toList) ("tools".toList) true true])
          ↔ replace_content ("tools.png".toList) ≠ "tools.png".toList)) :=
  C5_binary_never_rewritten
    (Entry.dir ("r".toList)
      [Entry.file ("tools.png".toList) ("tools".toList) true true])
    [] [0] ("tools.png".toList) ("tools".toList) true rfl

/-- C6: the walk is bottom-up and visits each entry once.  First part: once
a directory has been renamed, no later event of the trace touches a
position strictly below it — all its descendants' renames and rewrites were
already emitted.  Second part: no two rename events of the trace touch the
same position (no entry is renamed twice, no subtree revisited). -/
theorem C6_bottom_up_each_entry_once :
    (∀ (t : Entry) (p q : List Nat) (l1 l2 : List Event) (ev : Event),
      walkTrace p t = l1 ++ Event.renameDir q :: l2 → ev ∈ l2 →
      ¬ (q <+: Event.path ev ∧ Event.path ev ≠ q))
    ∧ (∀ (t : Entry) (p : List Nat) (l1 l2 l3 : List Event) (ev1 ev2 : Event),
      walkTrace p t = l1 ++ ev1 :: l2 ++ ev2 :: l3 →
      Event.isRename ev1 = true → Event.isRename ev2 = true →
      Event.path ev1 ≠ Event.path ev2) := by
  constructor
  · intro t p q l1 l2 ev htr hmem
    have hpw := walkTrace_pairwise p t
    rw [htr, List.pairwise_append, List.pairwise_cons] at hpw
    rintro ⟨hpre, hne⟩
    exact hne (hpw.2.1.1 ev hmem |>.1 q rfl hpre)
  · intro t p l1 l2 l3 ev1 ev2 htr h1 h2
    have hpw := walkTrace_pairwise p t
    rw [htr, List.pairwise_append] at hpw
    have hrel : EvRel ev1 ev2 := hpw.2.2 ev1 (by simp) ev2 (by simp)
    exact hrel.2 h1 h2

/-- Witness for C6, on the tree `r/{Tools/tool.md, tools.txt}` whose trace is
`[renameFile [0,0], renameDir [0], renameFile [1]]`: the event after the
directory rename is not below position `[0]`, and the two renames at trace
positions 1 and 2 touch different positions. -/
theorem C6_witness :
    ¬ ([0] <+: Event.path (Event.renameFile [1])
        ∧ Event.path (Event.renameFile [1]) ≠ [0])
    ∧ Event.path (Event.renameDir [0]) ≠ Event.path (Event.renameFile [1]) :=
  ⟨C6_bottom_up_each_entry_once.1
      (Entry.dir ("r".toList)
        [Entry.dir ("Tools".toList)
          [Entry.file ("tool.md".toList) ("x".toList) false true],
         Entry.file ("tools.txt".toList) ("y".toList) false true])
      [] [0] [Event.renameFile [0, 0]] [Event.renameFile [1]]
      (Event.renameFile [1]) (by decide) (by decide),
   C6_bottom_up_each_entry_once.2
      (Entry.dir ("r".toList)
        [Entry.dir ("Tools".toList)
          [Entry.file ("tool.md".toList) ("x".toList) false true],
         Entry.file ("tools.txt".toList) ("y".toList) false true])
      [] [Event.renameFile [0, 0]] [] []
      (Event.renameDir [0]) (Event.renameFile [1]) (by decide) (by decide)
      (by decide)⟩

/-! ### The last rule is dead (C9)

`re.sub` facts needed: the unfolding equations of `replaceAll`, that a
pattern that does not occur leaves the text unchanged, and the two central
rewriting lemmas: replacing `p` everywhere leaves no occurrence of `p`
(under decidable conditions on the pair `p, r`), and a replacement step
cannot create an occurrence of a string `X` that was absent (under
decidable conditions on the pair `X, r`). -/

theorem append_cons_eq_char (p : List Char) (a : Char) (r : List Char) :
    p ++ a :: r = (p ++ [a]) ++ r := by simp

theorem replaceAllFuel_congr (p r : List Char) :
    ∀ (fuel1 : Nat) (s : List Char) (fuel2 : Nat), s.length ≤ fuel1 →
      s.length ≤ fuel2 → replaceAllFuel p r fuel1 s = replaceAllFuel p r fuel2 s := by
  intro fuel1
  induction fuel1 with
  | zero =>
    intro s fuel2 h1 _
    have : s = [] := List.eq_nil_of_length_eq_zero (by omega)
    subst this
    cases fuel2 <;> rfl
  | succ fuel ih =>
    intro s fuel2 h1 h2
    cases s with
    | nil => cases fuel2 <;> rfl
    | cons c s2 =>
      cases fuel2 with
      | zero => simp at h2
      | succ fuel2 =>
        have e1 : replaceAllFuel p r (fuel + 1) (c :: s2)
            = if p.isPrefixOf (c :: s2) then
                r ++ replaceAllFuel p r fuel (s2.drop (p.length - 1))
              else c :: replaceAllFuel p r fuel s2 := rfl
        have e2 : replaceAllFuel p r (fuel2 + 1) (c :: s2)
            = if p.isPrefixOf (c :: s2) then
                r ++ replaceAllFuel p r fuel2 (s2.drop (p.length - 1))
              else c :: replaceAllFuel p r fuel2 s2 := rfl
        rw [e1, e2]
        by_cases hpre : p.isPrefixOf (c :: s2)
        · rw [if_pos hpre, if_pos hpre]
          have hlen : (s2.drop (p.length - 1)).length ≤ fuel := by
            have := List.length_drop (p.length - 1) s2
            simp at h1
            omega
          have hlen2 : (s2.drop (p.length - 1)).length ≤ fuel2 := by
            have := List.length_drop (p.length - 1) s2
            simp at h2
            omega
          rw [ih (s2.drop (p.length - 1)) fuel2 hlen hlen2]
        · rw [if_neg hpre, if_neg hpre]
          have hlen : s2.length ≤ fuel := by simp at h1; omega
          have hlen2 : s2.length ≤ fuel2 := by simp at h2; omega
          rw [ih s2 fuel2 hlen hlen2]

theorem replaceAll_nil (p r : List Char) : replaceAll p r [] = [] := rfl

theorem replaceAll_cons (p r : List Char) (c : Char) (s : List Char) :
    replaceAll p r (c :: s)
      = if p.isPrefixOf (c :: s) then
          r ++ replaceAll p r (s.drop (p.length - 1))
        else c :: replaceAll p r s := by
  have e1 : replaceAll p r (c :: s)
      = if p.isPrefixOf (c :: s) then
          r ++ replaceAllFuel p r s.length (s.drop (p.length - 1))
        else c :: replaceAllFuel p r s.length s := rfl
  rw [e1]
  by_cases hpre : p.isPrefixOf (c :: s)
  · rw [if_pos hpre, if_pos hpre]
    have e2 := replaceAllFuel_congr p r s.length (s.drop (p.length - 1))
      ((s.drop (p.length - 1)).length) (by simp) (le_refl _)
    rw [e2, replaceAll]
  · rw [if_neg hpre, if_neg hpre, replaceAll]

/-- A pattern that does not occur is not replaced. -/
theorem replaceAll_no_match (p r : List Char) (hp : p ≠ []) :
    ∀ s, ¬ p <:+: s → replaceAll p r s = s := by
  intro s
  induction s with
  | nil => intro _; rfl
  | cons c s2 ih =>
    intro h
    rw [replaceAll_cons]
    have hpre : ¬ (p.isPrefixOf (c :: s2) = true) := by
      intro hb
      exact h (List.isPrefixOf_iff_prefix.mp hb).isInfix
    rw [if_neg hpre]
    rw [ih (fun h2 => h (List.infix_cons h2))]

/-- Decomposing an occurrence inside a concatenation. -/
theorem infix_append_split {X u v : List Char} (h : X <:+: u ++ v) :
    X <:+: u ∨ X <:+: v
      ∨ ∃ x1 x2, x1 ≠ [] ∧ x2 ≠ [] ∧ X = x1 ++ x2 ∧ x1 <:+ u ∧ x2 <+: v := by
  obtain ⟨s, t, hst⟩ := h
  have hs_pre : s <+: u ++ v := ⟨X ++ t, by simpa [List.append_assoc] using hst⟩
  have hsX_pre : s ++ X <+: u ++ v := ⟨t, hst⟩
  have hu_pre : u <+: u ++ v := List.prefix_append u v
  by_cases h1 : u.length ≤ s.length
  · right; left
    obtain ⟨s2, rfl⟩ := List.prefix_of_prefix_length_le hu_pre hs_pre h1
    refine ⟨s2, t, ?_⟩
    have h3 : u ++ (s2 ++ X ++ t) = u ++ v := by
      simpa [List.append_assoc] using hst
    simpa [List.append_assoc] using List.append_cancel_left h3
  · by_cases h2 : s.length + X.length ≤ u.length
    · left
      obtain ⟨w, hw⟩ := List.prefix_of_prefix_length_le hsX_pre hu_pre
        (by simp only [List.length_append]; omega)
      exact ⟨s, w, hw⟩
    · right; right
      obtain ⟨m, hm⟩ := List.prefix_of_prefix_length_le hs_pre hu_pre (by omega)
      obtain ⟨w, hw⟩ := List.prefix_of_prefix_length_le hu_pre hsX_pre
        (by simp only [List.length_append]; omega)
      have hmlen : s.length + m.length = u.length := by
        have := congrArg List.length hm
        simpa using this
      have hmX : X = m ++ w := by
        have h3 : s ++ (m ++ w) = s ++ X := by
          rw [← List.append_assoc, hm]
          exact hw
        exact (List.append_cancel_left h3).symm
      have hXlen : X.length = m.length + w.length := by
        rw [hmX]
        simp
      refine ⟨m, w, ?_, ?_, hmX, ⟨s, hm⟩, ⟨t, ?_⟩⟩
      · intro hme
        rw [hme] at hmlen
        simp at hmlen
        omega
      · intro hwe
        rw [hwe] at hXlen
        simp at hXlen
        omega
      · have h4 : u ++ (w ++ t) = u ++ v := by
          rw [← List.append_assoc, hw]
          exact hst
        exact List.append_cancel_left h4

/-- Decomposing a prefix of a concatenation. -/
theorem prefix_append_split {x u v : List Char} (h : x <+: u ++ v) :
    x <+: u ∨ ∃ x2, x = u ++ x2 ∧ x2 <+: v := by
  by_cases h1 : x.length ≤ u.length
  · exact Or.inl (List.prefix_of_prefix_length_le h (List.prefix_append u v) h1)
  · right
    obtain ⟨x2, hx2⟩ := List.prefix_of_prefix_length_le (List.prefix_append u v)
      h (by omega)
    refine ⟨x2, hx2.symm, ?_⟩
    obtain ⟨t, ht⟩ := h
    rw [← hx2, List.append_assoc] at ht
    exact ⟨t, List.append_cancel_left ht⟩

/-- Decomposing a suffix of a concatenation. -/
theorem suffix_append_split {x u v : List Char} (h : x <:+ u ++ v) :
    x <:+ v ∨ ∃ x1, x = x1 ++ v ∧ x1 <:+ u := by
  have h2 : x.reverse <+: v.reverse ++ u.reverse := by
    rw [← List.reverse_append]
    exact List.reverse_prefix.mpr h
  rcases prefix_append_split h2 with h3 | ⟨x2, hx2, hpre⟩
  · left
    have := List.reverse_prefix.mp (by simpa using h3)
    exact this
  · right
    refine ⟨x2.reverse, ?_, ?_⟩
    · have : x.reverse.reverse = (v.reverse ++ x2).reverse := by rw [hx2]
      simpa [List.reverse_append] using this
    · have : x2.reverse.reverse <+: u.reverse := by simpa using hpre
      exact List.reverse_prefix.mp this

theorem eq_singleton_of_prefix {x : List Char} {c : Char} (h : x <+: [c])
    (hne : x ≠ []) : x = [c] := by
  obtain ⟨t, ht⟩ := h
  have hlen := congrArg List.length ht
  simp at hlen
  have hx : x.length = 1 := by
    have : x.length ≠ 0 := by simpa using hne
    omega
  have ht0 : t = [] := List.eq_nil_of_length_eq_zero (by omega)
  subst ht0
  simpa using ht

theorem eq_singleton_of_suffix {x : List Char} {c : Char} (h : x <:+ [c])
    (hne : x ≠ []) : x = [c] := by
  obtain ⟨t, ht⟩ := h
  have hlen := congrArg List.length ht
  simp at hlen
  have hx : x.length = 1 := by
    have : x.length ≠ 0 := by simpa using hne
    omega
  have ht0 : t = [] := List.eq_nil_of_length_eq_zero (by omega)
  subst ht0
  simpa using ht

theorem eq_singleton_of_infix {x : List Char} {c : Char} (h : x <:+: [c])
    (hne : x ≠ []) : x = [c] := by
  obtain ⟨s2, t2, h2⟩ := h
  have hlen := congrArg List.length h2
  simp at hlen
  have hx : x.length = 1 := by
    have : x.length ≠ 0 := by simpa using hne
    omega
  have hs0 : s2 = [] := List.eq_nil_of_length_eq_zero (by omega)
  have ht0 : t2 = [] := List.eq_nil_of_length_eq_zero (by omega)
  subst hs0
  subst ht0
  simpa using h2

/-- Replacing every occurrence of `p` by `r` leaves no occurrence of `p`,
provided the boundaries cannot recreate one: `p` does not occur in `r`, no
proper nonempty tail of `p` starts `r`, no proper nonempty head of `p` ends
`r`, and `r` does not occur in `p`.  The invariant carried through the scan:
the emitted output `w` is `p`-free and no occurrence of `p` straddles the
boundary between `w` and the unscanned input `s`. -/
theorem replaceAll_kills_aux (p r : List Char) (hp : p ≠ [])
    (S1 : ¬ p <:+: r)
    (S2 : ∀ k, k < p.length → 0 < k → ¬ (p.drop k <+: r))
    (S3 : ∀ k, k < p.length → 0 < k → ¬ (p.take k <:+ r))
    (S4 : ¬ r <:+: p) :
    ∀ (n : Nat) (s w : List Char), s.length ≤ n → ¬ p <:+: w →
      (∀ x1 x2, p = x1 ++ x2 → x1 ≠ [] → x2 ≠ [] → x1 <:+ w → ¬ x2 <+: s) →
      ¬ p <:+: (w ++ replaceAll p r s) := by
  intro n
  induction n with
  | zero =>
    intro s w hlen hw _
    have hs0 : s = [] := List.eq_nil_of_length_eq_zero (by omega)
    subst hs0
    simpa [replaceAll_nil] using hw
  | succ n ih =>
    intro s w hlen hw hstr
    cases s with
    | nil => simpa [replaceAll_nil] using hw
    | cons c s2 =>
      rw [replaceAll_cons]
      by_cases hpre : p.isPrefixOf (c :: s2)
      · rw [if_pos hpre, ← List.append_assoc]
        refine ih (s2.drop (p.length - 1)) (w ++ r) (by simp at hlen ⊢; omega)
          ?_ ?_
        · intro hinf
          rcases infix_append_split hinf with h3 | h3
            | ⟨x1, x2, hne1, hne2, hXeq, hsuf, hpre2⟩
          · exact hw h3
          · exact S1 h3
          · refine S2 x1.length ?_ (List.length_pos.mpr hne1) ?_
            · have hl : p.length = x1.length + x2.length := by rw [hXeq]; simp
              have hl2 : x2.length ≠ 0 := by simpa using hne2
              omega
            · have hx2 : p.drop x1.length = x2 := by
                rw [hXeq]
                exact List.drop_left x1 x2
              rw [hx2]
              exact hpre2
        · intro x1 x2 hXeq hne1 hne2 hsuf
          intro _
          rcases suffix_append_split hsuf with h3 | ⟨y, hy, hysuf⟩
          · refine S3 x1.length ?_ (List.length_pos.mpr hne1) ?_
            · have hl : p.length = x1.length + x2.length := by rw [hXeq]; simp
              have hl2 : x2.length ≠ 0 := by simpa using hne2
              omega
            · have hx1 : p.take x1.length = x1 := by
                rw [hXeq]
                exact List.take_left x1 x2
              rw [hx1]
              exact h3
          · by_cases hy0 : y = []
            · rw [hy0] at hy
              simp at hy
              refine S4 ⟨[], x2, ?_⟩
              simp only [List.nil_append]
              rw [← hy, ← hXeq]
            · refine S4 ⟨y, x2, ?_⟩
              rw [← hy, ← hXeq]
      · rw [if_neg hpre, append_cons_eq_char w c (replaceAll p r s2)]
        refine ih s2 (w ++ [c]) (by simp at hlen ⊢; omega) ?_ ?_
        · intro hinf
          rcases infix_append_split hinf with h3 | h3
            | ⟨x1, x2, hne1, hne2, hXeq, hsuf, hpre2⟩
          · exact hw h3
          · have hpc : p = [c] := eq_singleton_of_infix h3 hp
            apply hpre
            apply List.isPrefixOf_iff_prefix.mpr
            rw [hpc]
            exact ⟨s2, rfl⟩
          · have hx2 : x2 = [c] := eq_singleton_of_prefix hpre2 hne2
            refine hstr x1 x2 hXeq hne1 hne2 hsuf ?_
            rw [hx2]
            exact ⟨s2, rfl⟩
        · intro x1 x2 hXeq hne1 hne2 hsuf hx2
          rcases suffix_append_split hsuf with h3 | ⟨y, hy, hysuf⟩
          · have hx1 : x1 = [c] := eq_singleton_of_suffix h3 hne1
            apply hpre
            apply List.isPrefixOf_iff_prefix.mpr
            rw [hXeq, hx1]
            obtain ⟨t2, ht2⟩ := hx2
            exact ⟨t2, by rw [List.append_assoc, ht2]; rfl⟩
          · by_cases hy0 : y = []
            · rw [hy0] at hy
              simp at hy
              apply hpre
              apply List.isPrefixOf_iff_prefix.mpr
              rw [hXeq, hy]
              obtain ⟨t2, ht2⟩ := hx2
              exact ⟨t2, by rw [List.append_assoc, ht2]; rfl⟩
            · refine hstr y (c :: x2) ?_ hy0 (by simp) hysuf ?_
              · rw [hXeq, hy, List.append_assoc]
                rfl
              · exact (List.cons_prefix_cons).mpr ⟨rfl, hx2⟩

/-- Top-level form of `replaceAll_kills_aux`. -/
theorem replaceAll_kills (p r : List Char) (hp : p ≠ [])
    (S1 : ¬ p <:+: r)
    (S2 : ∀ k, k < p.length → 0 < k → ¬ (p.drop k <+: r))
    (S3 : ∀ k, k < p.length → 0 < k → ¬ (p.take k <:+ r))
    (S4 : ¬ r <:+: p) (s : List Char) : ¬ p <:+: replaceAll p r s := by
  have h := replaceAll_kills_aux p r hp S1 S2 S3 S4 s.length s [] (le_refl _)
    (fun hh => hp (List.eq_nil_of_infix_nil hh))
    (fun x1 x2 _ hne1 _ hsuf _ => hne1 (List.eq_nil_of_suffix_nil hsuf))
  simpa using h

/-- One replacement step cannot create an occurrence of `X` that was not
already present, provided: `X` does not occur in `r`, no proper nonempty
tail of `X` starts `r`, no proper nonempty head of `X` ends `r`, and `r`
does not occur in `X`. -/
theorem replaceAll_preserves_aux (p r X : List Char) (hp : p ≠ [])
    (T1 : ¬ X <:+: r)
    (T2 : ∀ k, k < X.length → 0 < k → ¬ (X.drop k <+: r))
    (T3 : ∀ k, k < X.length → 0 < k → ¬ (X.take k <:+ r))
    (T4 : ¬ r <:+: X) :
    ∀ (n : Nat) (s w : List Char), s.length ≤ n → ¬ X <:+: (w ++ s) →
      ¬ X <:+: (w ++ replaceAll p r s) := by
  intro n
  induction n with
  | zero =>
    intro s w hlen hX
    have hs0 : s = [] := List.eq_nil_of_length_eq_zero (by omega)
    subst hs0
    simpa [replaceAll_nil] using hX
  | succ n ih =>
    intro s w hlen hX
    cases s with
    | nil => simpa [replaceAll_nil] using hX
    | cons c s2 =>
      rw [replaceAll_cons]
      by_cases hpre : p.isPrefixOf (c :: s2)
      · rw [if_pos hpre]
        obtain ⟨d, hd⟩ := List.isPrefixOf_iff_prefix.mp hpre
        have hdd : s2.drop (p.length - 1) = d := by
          have h1 : (p ++ d).drop p.length = d := List.drop_left p d
          rw [hd] at h1
          cases hq : p.length with
          | zero => exact absurd (List.eq_nil_of_length_eq_zero hq) hp
          | succ k =>
            rw [hq] at h1
            simpa using h1
        rw [hdd, ← List.append_assoc]
        refine ih d (w ++ r) ?_ ?_
        · have hlp := congrArg List.length hd
          have hp1 : 0 < p.length := List.length_pos.mpr hp
          simp at hlp hlen
          omega
        · intro hinf
          rw [List.append_assoc] at hinf
          rcases infix_append_split hinf with h3 | h3
            | ⟨x1, x2, hne1, hne2, hXeq, hsuf, hpre2⟩
          · exact hX (h3.trans (List.prefix_append w (c :: s2)).isInfix)
          · rcases infix_append_split h3 with h4 | h4
              | ⟨a, b, hna, hnb, hXab, hasuf, hbpre⟩
            · exact T1 h4
            · apply hX
              have hsufd : d <:+ w ++ (c :: s2) := by
                rw [← hd]
                exact ⟨w ++ p, by rw [List.append_assoc]⟩
              exact h4.trans hsufd.isInfix
            · refine T3 a.length ?_ (List.length_pos.mpr hna) ?_
              · have hl : X.length = a.length + b.length := by rw [hXab]; simp
                have hl2 : b.length ≠ 0 := by simpa using hnb
                omega
              · have ha : X.take a.length = a := by
                  rw [hXab]
                  exact List.take_left a b
                rw [ha]
                exact hasuf
          · rcases prefix_append_split hpre2 with h4 | ⟨e, he, hepre⟩
            · refine T2 x1.length ?_ (List.length_pos.mpr hne1) ?_
              · have hl : X.length = x1.length + x2.length := by rw [hXeq]; simp
                have hl2 : x2.length ≠ 0 := by simpa using hne2
                omega
              · have hx2 : X.drop x1.length = x2 := by
                  rw [hXeq]
                  exact List.drop_left x1 x2
                rw [hx2]
                exact h4
            · apply T4
              rw [hXeq, he]
              exact ⟨x1, e, by rw [List.append_assoc]⟩
      · rw [if_neg hpre, append_cons_eq_char w c (replaceAll p r s2)]
        refine ih s2 (w ++ [c]) (by simp at hlen ⊢; omega) ?_
        intro hinf
        apply hX
        rw [append_cons_eq_char w c s2]
        exact hinf

/-- Top-level form of `replaceAll_preserves_aux`. -/
theorem replaceAll_preserves (p r X : List Char) (hp : p ≠ [])
    (T1 : ¬ X <:+: r)
    (T2 : ∀ k, k < X.length → 0 < k → ¬ (X.drop k <+: r))
    (T3 : ∀ k, k < X.length → 0 < k → ¬ (X.take k <:+ r))
    (T4 : ¬ r <:+: X) (s : List Char) (hs : ¬ X <:+: s) :
    ¬ X <:+: replaceAll p r s := by
  have h := replaceAll_preserves_aux p r X hp T1 T2 T3 T4 s.length s []
    (le_refl _) (by simpa using hs)
  simpa using h

/-- C9 (amended): the final substitution rule, `bio\\.tools →
hub.bioagents.tech`, can never fire.  Although an intermediate rule can
reintroduce an occurrence of `"tools"` (see the counterexample), no
replacement string ends in `'.'` or starts with a suffix of `".tools"`, so
no occurrence of `".tools"` — hence none of `"bio.tools"` — can be present
when the last rule is reached, and `replace_content` with the full 12-rule
list is extensionally equal to `replace_content` with the last rule
removed. -/
theorem C9_amended_last_rule_dead :
    ∀ s : List Char, replace_content s = replace_content11 s := by
  intro s
  have hstep : ∀ (k : Nat) (pr : List Char × List Char),
      replacements[k]? = some pr →
      applyFirst (k + 1) s = replaceAll pr.1 pr.2 (applyFirst k s) :=
    fun k pr h => foldl_take_succ _ replacements k pr h s
  have h1 : ¬ ("tools".toList) <:+: applyFirst 1 s := by
    rw [hstep 0 ("tools".toList, "agents".toList) rfl]
    exact replaceAll_kills _ _ (by decide) (by decide) (by decide) (by decide)
      (by decide) _
  have hd1 : ¬ (".tools".toList) <:+: applyFirst 1 s := fun h =>
    h1 ((by decide : ("tools".toList) <:+: (".tools".toList)).trans h)
  have hd2 : ¬ (".tools".toList) <:+: applyFirst 2 s := by
    rw [hstep 1 ("Tools".toList, "Agents".toList) rfl]
    exact replaceAll_preserves _ _ _ (by decide) (by decide) (by decide)
      (by decide) (by decide) _ hd1
  have hd3 : ¬ (".tools".toList) <:+: applyFirst 3 s := by
    rw [hstep 2 ("tool".toList, "agent".toList) rfl]
    exact replaceAll_preserves _ _ _ (by decide) (by decide) (by decide)
      (by decide) (by decide) _ hd2
  have hd4 : ¬ (".tools".toList) <:+: applyFirst 4 s := by
    rw [hstep 3 ("Tool".toList, "Agent".toList) rfl]
    exact replaceAll_preserves _ _ _ (by decide) (by decide) (by decide)
      (by decide) (by decide) _ hd3
  have hd5 : ¬ (".tools".toList) <:+: applyFirst 5 s := by
    rw [hstep 4 ("biotool".toList, "bioagent".toList) rfl]
    exact replaceAll_preserves _ _ _ (by decide) (by decide) (by decide)
      (by decide) (by decide) _ hd4
  have hd6 : ¬ (".tools".toList) <:+: applyFirst 6 s := by
    rw [hstep 5 ("biotools".toList, "bioagents".toList) rfl]
    exact replaceAll_preserves _ _ _ (by decide) (by decide) (by decide)
      (by decide) (by decide) _ hd5
  have hd7 : ¬ (".tools".toList) <:+: applyFirst 7 s := by
    rw [hstep 6 ("BioTools".toList, "BioAgents".toList) rfl]
    exact replaceAll_preserves _ _ _ (by decide) (by decide) (by decide)
      (by decide) (by decide) _ hd6
  have hd8 : ¬ (".tools".toList) <:+: applyFirst 8 s := by
    rw [hstep 7 ("BioTool".toList, "BioAgent".toList) rfl]
    exact replaceAll_preserves _ _ _ (by decide) (by decide) (by decide)
      (by decide) (by decide) _ hd7
  have hd9 : ¬ (".tools".toList) <:+: applyFirst 9 s := by
    rw [hstep 8 ("elixir".toList, "iechor".toList) rfl]
    exact replaceAll_preserves _ _ _ (by decide) (by decide) (by decide)
      (by decide) (by decide) _ hd8
  have hd10 : ¬ (".tools".toList) <:+: applyFirst 10 s := by
    rw [hstep 9 ("Elixir".toList, "iEchor".toList) rfl]
    exact replaceAll_preserves _ _ _ (by decide) (by decide) (by decide)
      (by decide) (by decide) _ hd9
  have hd11 : ¬ (".tools".toList) <:+: applyFirst 11 s := by
    rw [hstep 10 ("ELIXIR".toList, "IECHOR".toList) rfl]
    exact replaceAll_preserves _ _ _ (by decide) (by decide) (by decide)
      (by decide) (by decide) _ hd10
  have hbio : ¬ ("bio.tools".toList) <:+: applyFirst 11 s := fun h =>
    hd11 ((by decide : (".tools".toList) <:+: ("bio.tools".toList)).trans h)
  have hsplit : replace_content s
      = replaceAll ("bio.tools".toList) ("hub.bioagents.tech".toList)
          (applyFirst 11 s) := by
    have h12 := hstep 11 ("bio.tools".toList, "hub.bioagents.tech".toList) rfl
    rw [show replace_content s = applyFirst 12 s from rfl, h12]
  rw [hsplit,
    replaceAll_no_match ("bio.tools".toList) ("hub.bioagents.tech".toList)
      (by decide) (applyFirst 11 s) hbio]
  rfl


/-- Witness for C8: two failed pushes followed by a success complete the
publish; three failures abort it. -/
theorem C8_push_retry_witness :
    (process_repo_model
        ⟨false, false, true, false, true, (fun j => j == 2), false⟩).2
      = Outcome.completed
    ∧ (process_repo_model
        ⟨false, false, true, false, true, (fun _ => false), false⟩).2
      = Outcome.pushFailed :=
  ⟨(C8_push_retry.1 false false true false (fun j => j == 2) 2 (by decide) rfl
      (fun j hj => by interval_cases j <;> rfl)).1,
   (C8_push_retry.2 false false true false (fun _ => false) rfl rfl rfl).1⟩

end Spec2Proof
